import Mathlib

/-!
A shallow embedding of the core of the LLHD intermediate representation
(ids, types, instruction data, the assembly writer's name uniquification,
the entity instruction builder, the instruction-simplification pass, and
the temporal-code-motion pass) together with theorems checking the
natural-language specification against it.

Sources embedded:
* `src/ir/mod.rs` — id types and the invalid-value sentinel.
* `src/ty.rs` — the type algebra.
* `src/ir/inst.rs` — `InstData`, `Opcode`, accessors, builders.
* `src/ir/entity.rs` — `EntityBuilder::build_inst`.
* `src/ir/function.rs` — `FunctionBuilder::build_inst`.
* `src/assembly.rs` — `Writer::uniquify_name`.
* `src/pass/insim.rs` — `InstSimplification::run_on_inst` (drive arm).
* `src/pass/tcm.rs` — temporal region graph, wait fusion, drive sinking.

Code of the repository that the passes use but whose files are not part of
the snapshot (`pass/gcse.rs` with `DominatorTree` and `PredecessorTable`,
`ir/dfg.rs`, `ir/layout.rs`, the `DrvCond` opcode and the `is_temporal`
predicate of the newer `inst.rs`) is modelled from the specification; each
such definition carries a doc comment starting with `Modelled from the
spec:`.
-/

namespace Llhd

/-- An instruction id, from `impl_table_key` in `src/ir/mod.rs`. -/
structure Inst where
  id : Nat
deriving DecidableEq, Repr

/-- A value id, from `impl_table_key` in `src/ir/mod.rs`. -/
structure Value where
  id : Nat
deriving DecidableEq, Repr

/-- A basic-block id, from `impl_table_key` in `src/ir/mod.rs`. -/
structure Block where
  id : Nat
deriving DecidableEq, Repr

/-- An external-unit id, from `impl_table_key` in `src/ir/mod.rs`. -/
structure ExtUnit where
  id : Nat
deriving DecidableEq, Repr

/-- `Value::invalid()` from `src/ir/mod.rs`: the placeholder for unused
instruction arguments, `Value(std::u32::MAX)`. -/
def Value.invalid : Value :=
  ⟨4294967295⟩

/-- The type algebra `TypeKind` from `src/ty.rs`. -/
inductive Ty where
  | void
  | time
  | int (width : Nat)
  | enum (states : Nat)
  | pointer (target : Ty)
  | signal (inner : Ty)
  | array (size : Nat) (element : Ty)
  | struct (fields : List Ty)
  | func (args : List Ty) (ret : Ty)
  | entity (ins : List Ty) (outs : List Ty)

/-- `TypeKind::is_void` from `src/ty.rs`. -/
def Ty.is_void : Ty → Bool
  | .void => true
  | _ => false

/-- `Type::is_signal` as used by `EntityBuilder::build_inst` and the alias
scan of `push_drives`: true exactly on `SignalType`. -/
def Ty.is_signal : Ty → Bool
  | .signal _ => true
  | _ => false

/-- `signal_ty` from `src/ty.rs`. -/
def signal_ty (t : Ty) : Ty :=
  .signal t

/-- The `Opcode` enum from `src/ir/inst.rs`, plus `DrvCond`.

`DrvCond` is referenced by `src/pass/insim.rs` and `src/pass/tcm.rs` but
is absent from the snapshot's `inst.rs` enum. Modelled from the spec:
opcode list in section 3 includes `DrvCond` (a conditional drive carrying
signal, value, delay and a 1-bit condition). -/
inductive Opcode where
  | ConstInt
  | ConstTime
  | Alias
  | ArrayUniform
  | Array
  | Struct
  | Not
  | Neg
  | Add
  | Sub
  | And
  | Or
  | Xor
  | Smul
  | Sdiv
  | Smod
  | Srem
  | Umul
  | Udiv
  | Umod
  | Urem
  | Eq
  | Neq
  | Slt
  | Sgt
  | Sle
  | Sge
  | Ult
  | Ugt
  | Ule
  | Uge
  | Shl
  | Shr
  | Mux
  | Reg
  | InsField
  | InsSlice
  | ExtField
  | ExtSlice
  | Con
  | Del
  | Call
  | Inst
  | Sig
  | Drv
  | DrvCond
  | Prb
  | Var
  | Ld
  | St
  | Halt
  | Ret
  | RetValue
  | Br
  | BrCond
  | Wait
  | WaitTime
deriving DecidableEq, Repr

/-- The `UnitFlags` bitflags from `src/ir/inst.rs`, as three booleans. -/
structure UnitFlags where
  function : Bool
  process : Bool
  entity : Bool
deriving DecidableEq, Repr

/-- `UnitFlags::FUNCTION`. -/
def UnitFlags.FUNCTION : UnitFlags :=
  ⟨true, false, false⟩

/-- `UnitFlags::PROCESS`. -/
def UnitFlags.PROCESS : UnitFlags :=
  ⟨false, true, false⟩

/-- `UnitFlags::ENTITY`. -/
def UnitFlags.ENTITY : UnitFlags :=
  ⟨false, false, true⟩

/-- `UnitFlags::ALL`. -/
def UnitFlags.ALL : UnitFlags :=
  ⟨true, true, true⟩

/-- Bitwise union of flags (the `|` of bitflags). -/
def UnitFlags.union (a b : UnitFlags) : UnitFlags :=
  ⟨a.function || b.function, a.process || b.process, a.entity || b.entity⟩

/-- `UnitFlags::contains`: all bits of `b` are set in `a`. -/
def UnitFlags.contains (a b : UnitFlags) : Bool :=
  (!b.function || a.function) && (!b.process || a.process) && (!b.entity || a.entity)

/-- `Opcode::valid_in` from `src/ir/inst.rs` lines 1033-1043: the unit
kinds in which an opcode may appear.  Every opcode not listed in the match
falls through to `UnitFlags::ALL`. -/
def Opcode.valid_in : Opcode → UnitFlags
  | .Halt => UnitFlags.PROCESS
  | .Ret => UnitFlags.FUNCTION
  | .RetValue => UnitFlags.FUNCTION
  | .Br => UnitFlags.FUNCTION.union UnitFlags.PROCESS
  | .BrCond => UnitFlags.FUNCTION.union UnitFlags.PROCESS
  | .Con => UnitFlags.ENTITY
  | .Del => UnitFlags.ENTITY
  | .Reg => UnitFlags.ENTITY
  | _ => UnitFlags.ALL

/-- `Opcode::valid_in_function` from `src/ir/inst.rs`. -/
def Opcode.valid_in_function (o : Opcode) : Bool :=
  o.valid_in.contains UnitFlags.FUNCTION

/-- `Opcode::valid_in_process` from `src/ir/inst.rs`. -/
def Opcode.valid_in_process (o : Opcode) : Bool :=
  o.valid_in.contains UnitFlags.PROCESS

/-- `Opcode::valid_in_entity` from `src/ir/inst.rs`. -/
def Opcode.valid_in_entity (o : Opcode) : Bool :=
  o.valid_in.contains UnitFlags.ENTITY

/-- `Opcode::is_const` from `src/ir/inst.rs`. -/
def Opcode.is_const : Opcode → Bool
  | .ConstInt => true
  | .ConstTime => true
  | _ => false

/-- `Opcode::is_terminator` from `src/ir/inst.rs`. -/
def Opcode.is_terminator : Opcode → Bool
  | .Halt => true
  | .Ret => true
  | .RetValue => true
  | .Br => true
  | .BrCond => true
  | .Wait => true
  | .WaitTime => true
  | _ => false

/-- `Opcode::is_temporal`, used by `TemporalRegionGraph::new` but absent
from the snapshot's `inst.rs`. Modelled from the spec: section 4.7 says the
temporal region graph separates regions along the edges of `Wait*`
terminators, so the temporal opcodes are `Wait` and `WaitTime`. -/
def Opcode.is_temporal : Opcode → Bool
  | .Wait => true
  | .WaitTime => true
  | _ => false

/-- The register trigger modes from `src/ir/inst.rs`. -/
inductive RegMode where
  | Low
  | High
  | Rise
  | Fall
  | Both
deriving DecidableEq, Repr

/-- A constant time value. Modelled from the spec: glossary, "a time is a
triple `(real, delta, epsilon)`" (the `ConstTime` type of the newer crate
is not part of the snapshot). -/
structure ConstTime where
  time : Rat
  delta : Nat
  epsilon : Nat
deriving DecidableEq, Repr

/-- The `InstData` instruction formats from `src/ir/inst.rs`, plus
`Quaternary`.

Fixed-size Rust arrays (`[Value; 2]` etc.) are represented as lists of the
corresponding length.  `Quaternary` is the format of `DrvCond`
instructions; it is absent from the snapshot. Modelled from the spec:
`DrvCond` carries signal, value, delay and condition, and
`src/pass/insim.rs` reads the condition at `args()[3]`. -/
inductive InstData where
  | ConstInt (opcode : Opcode) (imm : Int)
  | ConstTime (opcode : Opcode) (imm : ConstTime)
  | Array (opcode : Opcode) (imm : Nat) (args : List Value)
  | Aggregate (opcode : Opcode) (args : List Value)
  | Nullary (opcode : Opcode)
  | Unary (opcode : Opcode) (args : List Value)
  | Binary (opcode : Opcode) (args : List Value)
  | Ternary (opcode : Opcode) (args : List Value)
  | Jump (opcode : Opcode) (bbs : List Block)
  | Branch (opcode : Opcode) (args : List Value) (bbs : List Block)
  | Wait (opcode : Opcode) (bbs : List Block) (args : List Value)
  | Call (opcode : Opcode) (unit : ExtUnit) (ins : Nat) (args : List Value)
  | InsExt (opcode : Opcode) (args : List Value) (imms : List Nat)
  | Reg (opcode : Opcode) (args : List Value) (modes : List RegMode)
  | Quaternary (opcode : Opcode) (args : List Value)
deriving DecidableEq, Repr

/-- `InstData::opcode` from `src/ir/inst.rs`. -/
def InstData.opcode : InstData → Opcode
  | .ConstInt o _ => o
  | .ConstTime o _ => o
  | .Array o _ _ => o
  | .Aggregate o _ => o
  | .Nullary o => o
  | .Unary o _ => o
  | .Binary o _ => o
  | .Ternary o _ => o
  | .Jump o _ => o
  | .Branch o _ _ => o
  | .Wait o _ _ => o
  | .Call o _ _ _ => o
  | .InsExt o _ _ => o
  | .Reg o _ _ => o
  | .Quaternary o _ => o

/-- `InstData::args` from `src/ir/inst.rs` lines 665-692: the argument
slice of an instruction.  For `InsExt` data with opcode `ExtField` or
`ExtSlice` only the first of the two stored slots is exposed
(`&args[0..1]`). -/
def InstData.args : InstData → List Value
  | .ConstInt _ _ => []
  | .ConstTime _ _ => []
  | .Array _ _ args => args
  | .Aggregate _ args => args
  | .Nullary _ => []
  | .Unary _ args => args
  | .Binary _ args => args
  | .Ternary _ args => args
  | .Jump _ _ => []
  | .Branch _ args _ => args
  | .Wait _ _ args => args
  | .Call _ _ _ args => args
  | .InsExt o args _ =>
    if o = .ExtField || o = .ExtSlice then args.take 1 else args
  | .Reg _ args _ => args
  | .Quaternary _ args => args

/-- `InstData::blocks` from `src/ir/inst.rs`. -/
def InstData.blocks : InstData → List Block
  | .Jump _ bbs => bbs
  | .Branch _ _ bbs => bbs
  | .Wait _ bbs _ => bbs
  | _ => []

/-- `InstData::replace_value` from `src/ir/inst.rs`: rewrite every slot
exposed by `args_mut()` that equals `from` to `to`, returning the new data
and the number of replacements.  `args_mut()` exposes the same slots as
`args()`; in particular for `ExtField`/`ExtSlice` data only the first slot
is written back and the second stored slot is left untouched. -/
def InstData.replace_value (data : InstData) (vfrom vto : Value) : InstData × Nat :=
  let rep : List Value → List Value × Nat := fun args =>
    (args.map (fun a => if a = vfrom then vto else a),
     (args.filter (fun a => a = vfrom)).length)
  match data with
  | .ConstInt o imm => (.ConstInt o imm, 0)
  | .ConstTime o imm => (.ConstTime o imm, 0)
  | .Array o imm args =>
    let (args, n) := rep args
    (.Array o imm args, n)
  | .Aggregate o args =>
    let (args, n) := rep args
    (.Aggregate o args, n)
  | .Nullary o => (.Nullary o, 0)
  | .Unary o args =>
    let (args, n) := rep args
    (.Unary o args, n)
  | .Binary o args =>
    let (args, n) := rep args
    (.Binary o args, n)
  | .Ternary o args =>
    let (args, n) := rep args
    (.Ternary o args, n)
  | .Jump o bbs => (.Jump o bbs, 0)
  | .Branch o args bbs =>
    let (args, n) := rep args
    (.Branch o args bbs, n)
  | .Wait o bbs args =>
    let (args, n) := rep args
    (.Wait o bbs args, n)
  | .Call o u ins args =>
    let (args, n) := rep args
    (.Call o u ins args, n)
  | .InsExt o args imms =>
    if o = .ExtField || o = .ExtSlice then
      let (head, n) := rep (args.take 1)
      (.InsExt o (head ++ args.drop 1) imms, n)
    else
      let (args, n) := rep args
      (.InsExt o args imms, n)
  | .Reg o args modes =>
    let (args, n) := rep args
    (.Reg o args modes, n)
  | .Quaternary o args =>
    let (args, n) := rep args
    (.Quaternary o args, n)

/-- `InstData::replace_block` from `src/ir/inst.rs`: rewrite every block
slot that equals `from` to `to`. -/
def InstData.replace_block (data : InstData) (bfrom bto : Block) : InstData :=
  match data with
  | .Jump o bbs => .Jump o (bbs.map (fun b => if b = bfrom then bto else b))
  | .Branch o args bbs => .Branch o args (bbs.map (fun b => if b = bfrom then bto else b))
  | .Wait o bbs args => .Wait o (bbs.map (fun b => if b = bfrom then bto else b)) args
  | d => d

/-- `InstData::get_const_int` from `src/ir/inst.rs`. -/
def InstData.get_const_int : InstData → Option Int
  | .ConstInt _ imm => some imm
  | _ => none

/-- The `InstData` constructed by `InstBuilder::ext_field` in
`src/ir/inst.rs` lines 366-373: an `InsExt` record with opcode `ExtField`,
arguments `[x, Value::invalid()]` and immediates `[imm, 0]`.  (The
surrounding result-type computation of `ext_field` does not influence the
stored data.) -/
def ext_field_data (x : Value) (imm : Nat) : InstData :=
  .InsExt .ExtField [x, Value.invalid] [imm, 0]

/-- The `InstData` constructed by `InstBuilder::ext_slice` in
`src/ir/inst.rs` lines 387-392: an `InsExt` record with opcode `ExtSlice`,
arguments `[x, Value::invalid()]` and immediates `[imm0, imm1]`. -/
def ext_slice_data (x : Value) (imm0 imm1 : Nat) : InstData :=
  .InsExt .ExtSlice [x, Value.invalid] [imm0, imm1]

/-- First-match association-list lookup (the read operation of the arena
primary and secondary tables of section 4.1). -/
def alookup {κ β : Type} [DecidableEq κ] (k : κ) : List (κ × β) → Option β
  | [] => none
  | (k', v) :: rest => if k' = k then some v else alookup k rest

/-- Replace the binding of `k` (first occurrence) by `v`. -/
def aupdate {κ β : Type} [DecidableEq κ] (k : κ) (v : β) : List (κ × β) → List (κ × β)
  | [] => []
  | (k', v') :: rest => if k' = k then (k, v) :: rest else (k', v') :: aupdate k v rest

/-- `HashMap::insert`: replace the binding of `k` if present, else add it. -/
def ainsert {κ β : Type} [DecidableEq κ] (k : κ) (v : β) (l : List (κ × β)) : List (κ × β) :=
  if (alookup k l).isSome then aupdate k v l else (k, v) :: l

/-- Drop every binding of `k`. -/
def aremove {κ β : Type} [DecidableEq κ] (k : κ) : List (κ × β) → List (κ × β)
  | [] => []
  | (k', v) :: rest => if k' = k then aremove k rest else (k', v) :: aremove k rest

/-- Apply `g` to the value of every binding of `k`. -/
def aupdateWith {κ β : Type} [DecidableEq κ] (k : κ) (g : β → β) :
    List (κ × β) → List (κ × β)
  | [] => []
  | (k', v) :: rest =>
    if k' = k then (k', g v) :: aupdateWith k g rest
    else (k', v) :: aupdateWith k g rest

/-- Apply `g` to the value of every binding. -/
def amapValues {κ β : Type} (g : β → β) : List (κ × β) → List (κ × β)
  | [] => []
  | (k', v) :: rest => (k', g v) :: amapValues g rest

/-- Remove every occurrence of `x` from a list. -/
def lremove {α : Type} [DecidableEq α] (x : α) : List α → List α
  | [] => []
  | a :: rest => if a = x then lremove x rest else a :: lremove x rest

/-- The `ValueData` table storage from `src/ir/mod.rs`. -/
inductive ValueData where
  | inst (ty : Ty) (inst : Inst)
  | arg (ty : Ty) (arg : Nat)

/-- `ValueData`'s type component. -/
def ValueData.ty : ValueData → Ty
  | .inst ty _ => ty
  | .arg ty _ => ty

/-- The data-flow graph of a unit.  The arena tables are association lists
with the newest binding in front; ids are handed out by the `next_inst`
and `next_value` counters, mirroring the primary tables of section 4.1.
(`ir/dfg.rs` is not part of the snapshot; the table layout follows the
field accesses in `EntityBuilder::build_inst`, `src/ir/entity.rs` lines
102-105, and the contract of section 4.2.) -/
structure DataFlowGraph where
  insts : List (Inst × InstData)
  values : List (Value × ValueData)
  results : List (Inst × Value)
  next_inst : Nat
  next_value : Nat

/-- The empty data-flow graph. -/
def DataFlowGraph.empty : DataFlowGraph :=
  ⟨[], [], [], 0, 0⟩

/-- Indexing `dfg[inst]`. -/
def DataFlowGraph.inst_data (dfg : DataFlowGraph) (inst : Inst) : Option InstData :=
  alookup inst dfg.insts

/-- `DataFlowGraph::get_inst_result` (section 4.2). -/
def DataFlowGraph.get_inst_result (dfg : DataFlowGraph) (inst : Inst) : Option Value :=
  alookup inst dfg.results

/-- `DataFlowGraph::value_type` (section 4.2). -/
def DataFlowGraph.value_type (dfg : DataFlowGraph) (v : Value) : Option Ty :=
  (alookup v dfg.values).map ValueData.ty

/-- `DataFlowGraph::get_value_inst`: the instruction defining a value, or
none for unit arguments (section 4.2). -/
def DataFlowGraph.get_value_inst (dfg : DataFlowGraph) (v : Value) : Option Inst :=
  match alookup v dfg.values with
  | some (.inst _ inst) => some inst
  | _ => none

/-- `DataFlowGraph::get_const_int` (section 4.2): recognize a value
produced by a `ConstInt` instruction. -/
def DataFlowGraph.get_const_int (dfg : DataFlowGraph) (v : Value) : Option Int :=
  match dfg.get_value_inst v with
  | some inst =>
    match dfg.inst_data inst with
    | some data => data.get_const_int
    | none => none
  | none => none

/-- `DataFlowGraph::add_inst` (section 4.2; the same steps appear inline
in `EntityBuilder::build_inst`, `src/ir/entity.rs` lines 102-105):
allocate an instruction id for `data` and, if `ty` is not void, allocate a
result value of type `ty` and record it. -/
def DataFlowGraph.add_inst (dfg : DataFlowGraph) (data : InstData) (ty : Ty) :
    Inst × DataFlowGraph :=
  let inst : Inst := ⟨dfg.next_inst⟩
  let dfg := { dfg with
    insts := (inst, data) :: dfg.insts
    next_inst := dfg.next_inst + 1 }
  if ty.is_void then (inst, dfg)
  else
    let result : Value := ⟨dfg.next_value⟩
    (inst, { dfg with
      values := (result, .inst ty inst) :: dfg.values
      results := (inst, result) :: dfg.results
      next_value := dfg.next_value + 1 })

/-- `DataFlowGraph::remove_inst` (section 4.2): free the result value and
retire the instruction id. -/
def DataFlowGraph.remove_inst (dfg : DataFlowGraph) (inst : Inst) : DataFlowGraph :=
  let values := match alookup inst dfg.results with
    | some v => aremove v dfg.values
    | none => dfg.values
  { dfg with
    insts := aremove inst dfg.insts
    values := values
    results := aremove inst dfg.results }

/-- Insert `x` directly after the first occurrence of `after`. -/
def listInsertAfter {α : Type} [DecidableEq α] (x after : α) : List α → List α
  | [] => []
  | a :: rest => if a = after then a :: x :: rest else a :: listInsertAfter x after rest

/-- Insert `x` directly before the first occurrence of `before`. -/
def listInsertBefore {α : Type} [DecidableEq α] (x bfr : α) : List α → List α
  | [] => []
  | a :: rest => if a = bfr then x :: a :: rest else a :: listInsertBefore x bfr rest

/-- The layout of a `Function` or `Process`: the ordered sequence of
blocks, each with its ordered sequence of instructions.  (`ir/layout.rs`
is not part of the snapshot; operations follow the contract of section
4.3.) -/
structure FunctionLayout where
  bbs : List (Block × List Inst)

/-- `FunctionLayout::blocks` (section 4.3). -/
def FunctionLayout.blocks (l : FunctionLayout) : List Block :=
  l.bbs.map Prod.fst

/-- `FunctionLayout::insts` (section 4.3). -/
def FunctionLayout.insts (l : FunctionLayout) (bb : Block) : List Inst :=
  (alookup bb l.bbs).getD []

/-- `FunctionLayout::entry` (section 4.3): the first block. -/
def FunctionLayout.entry (l : FunctionLayout) : Option Block :=
  l.blocks.head?

/-- `FunctionLayout::terminator` (section 4.3): the last instruction of a
block. -/
def FunctionLayout.terminator (l : FunctionLayout) (bb : Block) : Option Inst :=
  (l.insts bb).getLast?

/-- Boolean list membership via decidable equality. -/
def lmem {α : Type} [DecidableEq α] (x : α) (l : List α) : Bool :=
  decide (x ∈ l)

/-- `FunctionLayout::inst_block` (section 4.3): the block containing an
instruction. -/
def FunctionLayout.inst_block (l : FunctionLayout) (inst : Inst) : Option Block :=
  (l.bbs.find? (fun p => lmem inst p.2)).map Prod.fst

/-- `FunctionLayout::append_block` (section 4.3). -/
def FunctionLayout.append_block (l : FunctionLayout) (bb : Block) : FunctionLayout :=
  ⟨l.bbs ++ [(bb, [])]⟩

/-- `FunctionLayout::append_inst` (section 4.3). -/
def FunctionLayout.append_inst (l : FunctionLayout) (inst : Inst) (bb : Block) :
    FunctionLayout :=
  ⟨aupdateWith bb (fun li => li ++ [inst]) l.bbs⟩

/-- `FunctionLayout::prepend_inst` (section 4.3). -/
def FunctionLayout.prepend_inst (l : FunctionLayout) (inst : Inst) (bb : Block) :
    FunctionLayout :=
  ⟨aupdateWith bb (fun li => inst :: li) l.bbs⟩

/-- `FunctionLayout::insert_inst_after` (section 4.3). -/
def FunctionLayout.insert_inst_after (l : FunctionLayout) (inst other : Inst) :
    FunctionLayout :=
  ⟨amapValues (listInsertAfter inst other) l.bbs⟩

/-- `FunctionLayout::insert_inst_before` (section 4.3). -/
def FunctionLayout.insert_inst_before (l : FunctionLayout) (inst other : Inst) :
    FunctionLayout :=
  ⟨amapValues (listInsertBefore inst other) l.bbs⟩

/-- `FunctionLayout::remove_inst` (section 4.3). -/
def FunctionLayout.remove_inst (l : FunctionLayout) (inst : Inst) : FunctionLayout :=
  ⟨amapValues (lremove inst) l.bbs⟩

/-- The insertion position of a `FunctionBuilder`, `FunctionInsertPos`
from `src/ir/mod.rs`.  The `None` position panics in `build_inst` and is
never active in the embedded passes, so it is omitted. -/
inductive InsertPos where
  | Append (bb : Block)
  | Prepend (bb : Block)
  | After (inst : Inst)
  | Before (inst : Inst)

/-- The state of a CFG unit (`Function` or `Process`) under a builder:
its data-flow graph, its layout, and the id counter backing the block
table `bbs` of `src/ir/function.rs`. -/
structure UnitSt where
  dfg : DataFlowGraph
  layout : FunctionLayout
  next_block : Nat

/-- `FunctionBuilder::build_inst` from `src/ir/function.rs` lines
129-139: add the instruction to the data-flow graph and attach it to the
layout at the insertion position. -/
def UnitSt.build_inst (u : UnitSt) (pos : InsertPos) (data : InstData) (ty : Ty) :
    Inst × UnitSt :=
  let (inst, dfg) := u.dfg.add_inst data ty
  let layout := match pos with
    | .Append bb => u.layout.append_inst inst bb
    | .Prepend bb => u.layout.prepend_inst inst bb
    | .After other => u.layout.insert_inst_after inst other
    | .Before other => u.layout.insert_inst_before inst other
  (inst, { u with dfg := dfg, layout := layout })

/-- `FunctionBuilder::remove_inst` from `src/ir/function.rs`. -/
def UnitSt.remove_inst (u : UnitSt) (inst : Inst) : UnitSt :=
  { u with dfg := u.dfg.remove_inst inst, layout := u.layout.remove_inst inst }

/-- `FunctionBuilder::block` from `src/ir/function.rs`: allocate a fresh
block and append it to the layout. -/
def UnitSt.block (u : UnitSt) : Block × UnitSt :=
  let bb : Block := ⟨u.next_block⟩
  (bb, { u with layout := u.layout.append_block bb, next_block := u.next_block + 1 })

/-- The terminator data of a block: `dfg[layout.terminator(bb)]`. -/
def UnitSt.term_data (u : UnitSt) (bb : Block) : Option InstData :=
  match u.layout.terminator bb with
  | some inst => u.dfg.inst_data inst
  | none => none

/-- The insertion position of an `EntityBuilder`, `EntityInsertPos` from
`src/ir/mod.rs`. -/
inductive EntityPos where
  | Append
  | Prepend
  | After (inst : Inst)
  | Before (inst : Inst)

/-- The state of an `Entity` under a builder: its data-flow graph and its
flat instruction layout (`InstLayout`). -/
structure EntitySt where
  dfg : DataFlowGraph
  layout : List Inst

/-- The result-type adjustment of `EntityBuilder::build_inst`
(`src/ir/entity.rs` lines 97-101): lift to `signal(ty)` unless the type
is already a signal, is void, or the opcode is a constant. -/
def entity_result_ty (data : InstData) (ty : Ty) : Ty :=
  if !ty.is_signal && !ty.is_void && !data.opcode.is_const then signal_ty ty else ty

/-- `EntityBuilder::build_inst` from `src/ir/entity.rs` lines 96-114:
adjust the result type, add the instruction to the tables (result value
only for non-void types) and attach it to the layout at the insertion
position. -/
def EntitySt.build_inst (u : EntitySt) (pos : EntityPos) (data : InstData) (ty : Ty) :
    Inst × EntitySt :=
  let ty := entity_result_ty data ty
  let r := u.dfg.add_inst data ty
  let inst := r.1
  let layout := match pos with
    | .Append => u.layout ++ [inst]
    | .Prepend => inst :: u.layout
    | .After other => listInsertAfter inst other u.layout
    | .Before other => listInsertBefore inst other u.layout
  (inst, { dfg := r.2, layout := layout })

/-- One namespace of the assembly writer's name stack: the counter for
unnamed values and the uniquification counters per string
(`src/assembly.rs` line 32). -/
structure NameScope where
  counter : Nat
  names : List (String × Nat)

/-- The name stack of the assembly `Writer`.  The top of the Rust `Vec`
is the head of this list. -/
structure WriterSt where
  name_stack : List NameScope

/-- The fresh writer state, `Writer::new` (`src/assembly.rs` line 41):
one namespace with counter 0 and no names. -/
def WriterSt.new : WriterSt :=
  ⟨[⟨0, []⟩]⟩

/-- The lower-stack scan of `uniquify_name` (`src/assembly.rs` lines
80-86): traverse the stack below the top namespace from top to bottom and
return the first uniquification counter found for `name`. -/
def findBelowTop (name : String) : List NameScope → Option Nat
  | [] => none
  | ns :: rest =>
    match alookup name ns.names with
    | some i => some i
    | none => findBelowTop name rest

/-- `Writer::uniquify_name` from `src/assembly.rs` lines 62-105.  With a
name: if the top namespace already has a counter for it, emit the name
suffixed with the counter and increment the counter; otherwise look for a
counter lower in the stack, record it (or 0) in the top namespace, and
emit the name suffixed with the found counter, or bare if none was found.
Without a name: emit the top namespace's unnamed counter and increment
it. -/
def WriterSt.uniquify_name (w : WriterSt) (name : Option String) (global : Bool) :
    String × WriterSt :=
  let pfx := if global then "@" else "%"
  match name with
  | some name =>
    match w.name_stack with
    | [] => (pfx ++ name, w)
    | top :: rest =>
      match alookup name top.names with
      | some index =>
        (pfx ++ name ++ toString index,
         ⟨{ top with names := aupdate name (index + 1) top.names } :: rest⟩)
      | none =>
        let index : Option Nat := findBelowTop name rest
        let top := { top with names := ainsert name (index.getD 0) top.names }
        (match index with
         | some i => pfx ++ name ++ toString i
         | none => pfx ++ name,
         ⟨top :: rest⟩)
  | none =>
    match w.name_stack with
    | [] => ("%0", w)
    | top :: rest =>
      ("%" ++ toString top.counter, ⟨{ top with counter := top.counter + 1 } :: rest⟩)

/-- Outputs of a sequence of `uniquify_name` requests, in request order. -/
def WriterSt.uniquify_run (w : WriterSt) : List (Option String × Bool) → List String
  | [] => []
  | (name, global) :: rest =>
    let (out, w) := w.uniquify_name name global
    out :: w.uniquify_run rest

/-- The `Opcode::DrvCond` arm of `InstSimplification::run_on_inst`,
`src/pass/insim.rs` lines 14-37.  The builder's position is set to
`After(inst)` on entry; if the instruction is a `DrvCond` whose condition
argument (`args()[3]`) is recognized as a constant integer, an
unconditional `drv` with the same signal, value and delay is built when
the constant is one, and the `DrvCond` is removed in either case.  A
`DrvCond` is void, so the remainder of `run_on_inst` exits at
`get_inst_result` without further effect on the unit. -/
def insim_run_on_inst (u : UnitSt) (inst : Inst) : UnitSt :=
  match u.dfg.inst_data inst with
  | none => u
  | some data =>
    if data.opcode = .DrvCond then
      match (data.args.get? 3).bind u.dfg.get_const_int with
      | some konst =>
        let u :=
          if konst = 1 then
            let signal := data.args.getD 0 Value.invalid
            let value := data.args.getD 1 Value.invalid
            let delay := data.args.getD 2 Value.invalid
            (u.build_inst (.After inst) (.Ternary .Drv [signal, value, delay]) .void).2
          else u
        u.remove_inst inst
      | none => u
    else u

/-- The state threaded through the region assignment of
`TemporalRegionGraph::new` (`src/pass/tcm.rs` lines 543-596): the
worklist, the set of visited blocks, the block-to-region map, the head
and tail block sets, and the next region id.  The extra `promoted` field
records every block for which the override branch of line 586 fired; it
is instrumentation for the proofs and influences nothing else. -/
structure TrgSt where
  todo : List Block
  seen : List Block
  blocks : List (Block × Nat)
  head_blocks : List Block
  tail_blocks : List Block
  next_id : Nat
  promoted : List Block

/-- The seed blocks of `TemporalRegionGraph::new` (`src/pass/tcm.rs`
lines 543-557): the entry block followed by every block that is the
target of a temporal terminator, each at most once, in layout order.
The input `cfg` lists the blocks of the layout in order, each paired with
the data of its terminator instruction (collapsing
`dfg[layout.terminator(bb)]`). -/
def trg_seeds (cfg : List (Block × InstData)) : List Block :=
  match cfg with
  | [] => []
  | (entry, _) :: _ =>
    cfg.foldl
      (fun acc p =>
        if p.2.opcode.is_temporal then
          p.2.blocks.foldl
            (fun acc target => if lmem target acc then acc else acc ++ [target]) acc
        else acc)
      [entry]

/-- The per-target body of the breadth-first region assignment
(`src/pass/tcm.rs` lines 582-595): a target that was not yet seen is
pushed and assigned the popped block's region `tr`; if the insertion
reports that the target already had a region, it is reassigned to the
fresh region `next_id`, marked as a head block, and the popped block
`bb` is marked as a tail block (the override branch of lines 586-593). -/
def trg_visit (tr : Nat) (bb : Block) (s : TrgSt) (target : Block) : TrgSt :=
  if lmem target s.seen then s
  else
    let s := { s with
      seen := s.seen ++ [target]
      todo := s.todo ++ [target] }
    let old := alookup target s.blocks
    let s := { s with blocks := ainsert target tr s.blocks }
    match old with
    | some _ =>
      { s with
        blocks := ainsert target s.next_id s.blocks
        head_blocks := s.head_blocks ++ [target]
        tail_blocks := s.tail_blocks ++ [bb]
        next_id := s.next_id + 1
        promoted := s.promoted ++ [target] }
    | none => s

/-- The breadth-first loop of `TemporalRegionGraph::new`
(`src/pass/tcm.rs` lines 572-596): pop a block; a block with a temporal
terminator becomes a tail block; otherwise every terminator target is
processed by `trg_visit`.  The fuel only bounds the number of loop
iterations; `trg_fuel` always suffices. -/
def trg_bfs (cfg : List (Block × InstData)) : Nat → TrgSt → TrgSt
  | 0, s => s
  | fuel + 1, s =>
    match s.todo with
    | [] => s
    | bb :: todo =>
      let s := { s with todo := todo }
      let tr := (alookup bb s.blocks).getD 0
      match alookup bb cfg with
      | none => trg_bfs cfg fuel s
      | some term =>
        if term.opcode.is_temporal then
          trg_bfs cfg fuel { s with tail_blocks := s.tail_blocks ++ [bb] }
        else
          trg_bfs cfg fuel (term.blocks.foldl (trg_visit tr bb) s)

/-- An upper bound on the number of loop iterations of the breadth-first
region assignment: every pop was pushed, and pushes are bounded by the
seeds plus one per terminator target. -/
def trg_fuel (cfg : List (Block × InstData)) : Nat :=
  1 + cfg.length + cfg.foldl (fun n p => n + p.2.blocks.length) 0

/-- The region-assignment phase of `TemporalRegionGraph::new`
(`src/pass/tcm.rs` lines 543-596): seed the worklist and the region map
(one fresh region per seed, every seed a head block), then run the
breadth-first assignment. -/
def trg_new (cfg : List (Block × InstData)) : TrgSt :=
  let seeds := trg_seeds cfg
  let init : TrgSt := {
    todo := seeds
    seen := seeds
    blocks := (seeds.foldl (fun (p : List (Block × Nat) × Nat) bb =>
      (ainsert bb p.2 p.1, p.2 + 1)) ([], 0)).1
    head_blocks := seeds
    tail_blocks := []
    next_id := seeds.length
    promoted := [] }
  trg_bfs cfg (trg_fuel cfg) init

/-- The dominator-tree interface used by `push_drive`.  Modelled from the
spec: section 4.7 — `dominator(bb)` is the parent in the dominator tree,
`block_order(bb)` an index in a post-order-consistent linearization, and
`value_dominates_block` is true iff the value is a unit argument or its
defining instruction's block dominates the given block
(`pass/gcse.rs`, which defines `DominatorTree`, is not part of the
snapshot). -/
structure DomTree where
  dominator : Block → Block
  block_order : Block → Nat
  value_dominates_block : Value → Block → Bool

/-- The branch polarity recorded by `push_drive` (`src/pass/tcm.rs` lines
371-373): the position of the source-side finger in the terminator's
target list, turned into a boolean by comparing it against 0
(`cond_pol != 0`); no pair is recorded when the finger is not a target. -/
def brcond_polarity (tdata : InstData) (finger : Block) : Option Bool :=
  (tdata.blocks.findIdx? (fun bb => decide (bb = finger))).map (fun p => decide (p ≠ 0))

/-- The dominator-tree walk of `push_drive` (`src/pass/tcm.rs` lines
348-400): step the higher-ordered finger of `src` and `dst` up the
dominator tree until the fingers meet; whenever the source finger steps
to a parent whose terminator is a two-way conditional branch, record the
branch condition and the finger's polarity, aborting if the condition
does not dominate `dst_bb`.  Returns the recorded conditions, or none
when the walk aborts (a `break` with distinct fingers, a missing
terminator, or fuel exhaustion — the Rust loop does not terminate when
both fingers have equal order and differ). -/
def walk_conds (dt : DomTree) (term : Block → Option InstData) (dst_bb : Block) :
    Nat → Block → Block → List (Value × Bool) → Option (List (Value × Bool))
  | 0, _, _, _ => none
  | fuel + 1, src_finger, dst_finger, conds =>
    if src_finger = dst_finger then some conds
    else
      let i1 := dt.block_order src_finger
      let i2 := dt.block_order dst_finger
      if i1 < i2 then
        let parent := dt.dominator src_finger
        if src_finger = parent then none
        else
          match term parent with
          | none => none
          | some tdata =>
            if tdata.opcode = .BrCond then
              let cond_val := tdata.args.getD 0 Value.invalid
              if !dt.value_dominates_block cond_val dst_bb then none
              else
                let conds := match brcond_polarity tdata src_finger with
                  | some pol => conds ++ [(cond_val, pol)]
                  | none => conds
                walk_conds dt term dst_bb fuel parent dst_finger conds
            else
              walk_conds dt term dst_bb fuel parent dst_finger conds
      else if i2 < i1 then
        let parent := dt.dominator dst_finger
        if dst_finger = parent then none
        else walk_conds dt term dst_bb fuel src_finger parent conds
      else
        walk_conds dt term dst_bb fuel src_finger dst_finger conds

/-- The per-destination check of `push_drive` (`src/pass/tcm.rs` lines
327-405): every argument of the drive must dominate the destination
block, and the dominator walk from the drive's block must reach a common
dominator, yielding the recorded branch conditions. -/
def drive_dst_conds (dt : DomTree) (u : UnitSt) (drive : Inst) (src_bb dst_bb : Block)
    (fuel : Nat) : Option (List (Value × Bool)) :=
  match u.dfg.inst_data drive with
  | none => none
  | some ddata =>
    if ddata.args.all (fun arg => dt.value_dominates_block arg dst_bb) then
      walk_conds dt u.term_data dst_bb fuel src_bb dst_bb []
    else none

/-- The checking phase of `push_drive` (`src/pass/tcm.rs` lines 322-405):
gather one move per tail block of the drive's region, or none as soon as
any destination aborts.  No part of the unit is modified here. -/
def drive_moves (dt : DomTree) (u : UnitSt) (drive : Inst) (src_bb : Block)
    (fuel : Nat) : List Block → Option (List (Block × List (Value × Bool)))
  | [] => some []
  | dst_bb :: rest =>
    match drive_dst_conds dt u drive src_bb dst_bb fuel with
    | none => none
    | some conds =>
      match drive_moves dt u drive src_bb fuel rest with
      | none => none
      | some moves => some ((dst_bb, conds) :: moves)

/-- One iteration of the condition-synthesis loop of `push_drive`
(`src/pass/tcm.rs` lines 423-428): conjoin one recorded condition onto
the accumulated condition value, wrapping it in a `not` first when its
polarity is false. -/
def build_cond_step (dst_bb : Block) (acc : Value × UnitSt) (vp : Value × Bool) :
    Value × UnitSt :=
  let cond := acc.1
  let u := acc.2
  let vu :=
    if vp.2 then (vp.1, u)
    else
      let ty := (u.dfg.value_type vp.1).getD (.int 1)
      let r := u.build_inst (.Prepend dst_bb) (.Unary .Not [vp.1]) ty
      ((r.2.dfg.get_inst_result r.1).getD Value.invalid, r.2)
  let ty := (vu.2.dfg.value_type cond).getD (.int 1)
  let r := vu.2.build_inst (.Prepend dst_bb) (.Binary .And [cond, vu.1]) ty
  ((r.2.dfg.get_inst_result r.1).getD Value.invalid, r.2)

/-- The condition synthesis of `push_drive` (`src/pass/tcm.rs` lines
420-428): set the insertion position to the front of the destination
block, build `const i1 1` (`IntValue::all_ones(1)`), then fold the
recorded conditions in reverse order through `build_cond_step`. -/
def build_drive_cond (u : UnitSt) (dst_bb : Block) (conds : List (Value × Bool)) :
    Value × UnitSt :=
  let r := u.build_inst (.Prepend dst_bb) (.ConstInt .ConstInt 1) (.int 1)
  let cond := (r.2.dfg.get_inst_result r.1).getD Value.invalid
  conds.reverse.foldl (build_cond_step dst_bb) (cond, r.2)

/-- The move-execution phase of `push_drive` (`src/pass/tcm.rs` lines
408-442): for every recorded destination, synthesize the drive condition
at the front of the destination block, conjoin the original `DrvCond`
condition if the drive was conditional, and emit a `drv_cond` with the
drive's signal, value and delay.  (The `drv_cond` builder belongs to the
newer `inst.rs` that is not part of the snapshot; its `Quaternary` data
is modelled from the spec as noted at `InstData`.) -/
def push_drive_apply (u : UnitSt) (drive : Inst)
    (moves : List (Block × List (Value × Bool))) : UnitSt :=
  moves.foldl
    (fun u m =>
      let (dst_bb, conds) := m
      let (cond, u) := build_drive_cond u dst_bb conds
      let ddata := (u.dfg.inst_data drive).getD (.Nullary .Halt)
      let (cond, u) :=
        if ddata.opcode = .DrvCond then
          let arg := ddata.args.getD 3 Value.invalid
          let ty := (u.dfg.value_type cond).getD (.int 1)
          let (ainst, u) := u.build_inst (.Prepend dst_bb) (.Binary .And [cond, arg]) ty
          ((u.dfg.get_inst_result ainst).getD Value.invalid, u)
        else (cond, u)
      let signal := ddata.args.getD 0 Value.invalid
      let value := ddata.args.getD 1 Value.invalid
      let delay := ddata.args.getD 2 Value.invalid
      (u.build_inst (.Prepend dst_bb) (.Quaternary .DrvCond [signal, value, delay, cond])
        .void).2)
    u

/-- The temporal-region data consumed by the drive-sinking loop: whether
a block is a tail block, and the tail blocks of a block's region
(`trg[trg[bb]].tail_blocks()`).  Passed as an interface because
`push_drive` only reads these two projections of the
`TemporalRegionGraph`. -/
structure TrgInfo where
  is_tail : Block → Bool
  tails_of : Block → List Block

/-- `push_drive` from `src/pass/tcm.rs` lines 310-448: compute the moves
for every tail block of the drive's region, and only if every
destination succeeds, execute all moves and remove the original drive;
otherwise return false with the unit untouched. -/
def push_drive (dt : DomTree) (trg : TrgInfo) (u : UnitSt) (drive : Inst) (fuel : Nat) :
    Bool × UnitSt :=
  match u.layout.inst_block drive with
  | none => (false, u)
  | some src_bb =>
    match drive_moves dt u drive src_bb fuel (trg.tails_of src_bb) with
    | none => (false, u)
    | some moves => (true, (push_drive_apply u drive moves).remove_inst drive)

/-- The per-signal drive loop of `push_drives` (`src/pass/tcm.rs` lines
271-299), already iterating in reverse sequence order: skip drives that
sit in a tail block or whose region has no tail blocks; otherwise attempt
the move, and stop the whole loop at the first drive that cannot be
moved. -/
def push_drives_go (dt : DomTree) (trg : TrgInfo) (u : UnitSt) (modified : Bool)
    (fuel : Nat) : List Inst → Bool × UnitSt
  | [] => (modified, u)
  | drive :: rest =>
    match u.layout.inst_block drive with
    | none => (modified, u)
    | some drive_bb =>
      if trg.is_tail drive_bb then push_drives_go dt trg u modified fuel rest
      else if (trg.tails_of drive_bb).isEmpty then push_drives_go dt trg u modified fuel rest
      else
        let (moved, u) := push_drive dt trg u drive fuel
        if moved then push_drives_go dt trg u (modified || moved) fuel rest
        else (modified, u)

/-- The branch-insertion loop of the wait-fusion step
(`src/pass/tcm.rs` lines 121-124): after each instruction of the group,
build an unconditional branch to the unified block. -/
def add_branches (u : UnitSt) (insts : List Inst) (unified_bb : Block) : UnitSt :=
  insts.foldl
    (fun u inst => (u.build_inst (.After inst) (.Jump .Br [unified_bb]) .void).2) u

/-- Wait fusion for one group of structurally identical tail
instructions, `src/pass/tcm.rs` lines 117-133 (the group is
`i0 :: rest`, mirroring the accesses `insts[0]` and `insts[1..]`): create
a fresh block, insert a branch to it after every instruction of the
group, detach `i0` from its block and append it to the fresh block, and
remove the remaining instructions of the group. -/
def fuse_group (u : UnitSt) (i0 : Inst) (rest : List Inst) : UnitSt :=
  let r := u.block
  let unified_bb := r.1
  let u1 := r.2
  let u2 := add_branches u1 (i0 :: rest) unified_bb
  let u3 := { u2 with layout := (u2.layout.remove_inst i0).append_inst i0 unified_bb }
  rest.foldl (fun u inst => u.remove_inst inst) u3

/-- A syntactic mirror of the condition chain built by the
move-execution phase of `push_drive` (`src/pass/tcm.rs` lines 421-428):
each `ins()` call corresponds to one node — the initial
`const_int(all_ones(1))`, a `not` per false-polarity condition, and an
`and` per condition. -/
inductive CExpr where
  | one
  | lit (v : Value)
  | notE (v : Value)
  | andE (a b : CExpr)
deriving DecidableEq, Repr

/-- Boolean denotation of a condition chain under an environment
assigning truth values to the IR values. -/
def CExpr.eval (env : Value → Bool) : CExpr → Bool
  | .one => true
  | .lit v => env v
  | .notE v => !env v
  | .andE a b => a.eval env && b.eval env

/-- The shape of the condition chain of `push_drive`
(`src/pass/tcm.rs` lines 421-428), term for term: start from the
constant one and fold the recorded conditions in reverse order, wrapping
false-polarity conditions in a `not` before the `and`. -/
def drive_cond_expr (conds : List (Value × Bool)) : CExpr :=
  conds.reverse.foldl
    (fun acc vp => .andE acc (if vp.2 then .lit vp.1 else .notE vp.1)) .one

/-- Readback of a condition chain from the data-flow graph: the value `v`
carries the condition expression `e` when the instructions defining it
have the corresponding shapes (`const 1` for the constant one, `not x`
for a negated leaf, `and a b` for a conjunction); any value may stand as
a plain leaf. -/
inductive chain_encodes (dfg : DataFlowGraph) : Value → CExpr → Prop where
  | lit (v : Value) : chain_encodes dfg v (.lit v)
  | one (v : Value) (i : Inst) :
      dfg.get_value_inst v = some i →
      dfg.inst_data i = some (.ConstInt .ConstInt 1) →
      chain_encodes dfg v .one
  | notE (v x : Value) (i : Inst) :
      dfg.get_value_inst v = some i →
      dfg.inst_data i = some (.Unary .Not [x]) →
      chain_encodes dfg v (.notE x)
  | andE (v a b : Value) (i : Inst) (ea eb : CExpr) :
      dfg.get_value_inst v = some i →
      dfg.inst_data i = some (.Binary .And [a, b]) →
      chain_encodes dfg a ea →
      chain_encodes dfg b eb →
      chain_encodes dfg v (.andE ea eb)

/-- Well-boundedness of the arena counters of a data-flow graph: every
table key is below its id counter. -/
def DfgKeyBounds (dfg : DataFlowGraph) : Prop :=
  (∀ p ∈ dfg.insts, p.1.id < dfg.next_inst) ∧
  (∀ p ∈ dfg.values, p.1.id < dfg.next_value) ∧
  (∀ p ∈ dfg.results, p.1.id < dfg.next_inst)

/-- `InstData`'s stored argument slots, ignoring the opcode-dependent
slicing of `args()`; used to observe the hidden second slot of
`ExtField`/`ExtSlice` data. -/
def InstData.raw_args : InstData → List Value
  | .ConstInt _ _ => []
  | .ConstTime _ _ => []
  | .Array _ _ args => args
  | .Aggregate _ args => args
  | .Nullary _ => []
  | .Unary _ args => args
  | .Binary _ args => args
  | .Ternary _ args => args
  | .Jump _ _ => []
  | .Branch _ args _ => args
  | .Wait _ _ args => args
  | .Call _ _ _ args => args
  | .InsExt _ args _ => args
  | .Reg _ args _ => args
  | .Quaternary _ args => args

/-- Concrete block 0 for the example inputs. -/
def xb0 : Block := ⟨0⟩

/-- Concrete block 1 for the example inputs. -/
def xb1 : Block := ⟨1⟩

/-- Concrete block 2 for the example inputs. -/
def xb2 : Block := ⟨2⟩

/-- Concrete block 3 for the example inputs. -/
def xb3 : Block := ⟨3⟩

/-- Concrete value for the example inputs (a branch condition). -/
def xv0 : Value := ⟨100⟩

/-- A process CFG on which the breadth-first region assignment reaches
one block from seeds of two distinct regions: block 0 (the entry, region
0) branches to blocks 1 and 3; block 1 waits towards block 2 (making
block 2 the seed of region 1); block 2 branches to block 3; block 3
waits towards block 0.  Block 3 is thus reachable over non-temporal
edges both from seed 0 (region 0) and from seed 2 (region 1). -/
def trgExample : List (Block × InstData) :=
  [(xb0, .Branch .BrCond [xv0] [xb1, xb3]),
   (xb1, .Wait .Wait [xb2] []),
   (xb2, .Jump .Br [xb3]),
   (xb3, .Wait .Wait [xb0] [])]

/-- A dominator tree for the branch-polarity counterexample: block 0
dominates blocks 1 and 2 and is its own parent; the post-order indices
place block 0 above both. -/
def walkDt : DomTree where
  dominator := fun _ => xb0
  block_order := fun b => if b = xb0 then 2 else if b = xb1 then 0 else 1
  value_dominates_block := fun _ _ => true

/-- Terminators for the branch-polarity counterexample: block 0 ends in
`br_cond v, block1, block2`. -/
def walkTerm : Block → Option InstData := fun b =>
  if b = xb0 then some (.Branch .BrCond [xv0] [xb1, xb2]) else none

/-- A unit with a single unconditional drive (instruction 0, in block 0)
whose arguments dominate nothing, for exercising the failure path of
`push_drive`.  Block 1 is the tail block of the region. -/
def pdExample : UnitSt where
  dfg := {
    insts := [(⟨0⟩, .Ternary .Drv [⟨10⟩, ⟨11⟩, ⟨12⟩])]
    values := []
    results := []
    next_inst := 1
    next_value := 0 }
  layout := ⟨[(xb0, [⟨0⟩]), (xb1, [])]⟩
  next_block := 2

/-- A dominator tree under which no value dominates any block, so the
argument check of `push_drive` fails for any drive with arguments. -/
def pdDt : DomTree where
  dominator := fun b => b
  block_order := fun _ => 0
  value_dominates_block := fun _ _ => false

/-- Temporal-region data for the `push_drive` failure example: no block
is a tail block, and every region has block 1 as its tail. -/
def pdTrg : TrgInfo where
  is_tail := fun _ => false
  tails_of := fun _ => [xb1]

/-- A unit with two blocks, each terminated by a structurally identical
wait instruction (instructions 0 and 1), for exercising wait fusion. -/
def fuseExample : UnitSt where
  dfg := {
    insts := [(⟨0⟩, .Wait .Wait [xb0] []), (⟨1⟩, .Wait .Wait [xb0] [])]
    values := []
    results := []
    next_inst := 2
    next_value := 0 }
  layout := ⟨[(xb0, [⟨0⟩]), (xb1, [⟨1⟩])]⟩
  next_block := 2

/-- The block assignment of the wait-fusion example group: instruction 0
terminates block 0 and instruction 1 terminates block 1. -/
def fuseBlk : Inst → Block := fun i => if i = ⟨0⟩ then xb0 else xb1

/-- An empty entity under the builder, for exercising
`EntityBuilder::build_inst`. -/
def entExample : EntitySt where
  dfg := DataFlowGraph.empty
  layout := []

/-- A unit holding `v0 = const i1 1` (instruction 0) and
`drv_cond s, v, d if v0` (instruction 1), both in block 0, with the
condition referring to the constant; for exercising the drive arm of the
instruction simplifier. -/
def insimExample : UnitSt where
  dfg := {
    insts := [(⟨0⟩, .ConstInt .ConstInt 1),
              (⟨1⟩, .Quaternary .DrvCond [⟨10⟩, ⟨11⟩, ⟨12⟩, ⟨0⟩])]
    values := [(⟨0⟩, .inst (.int 1) ⟨0⟩)]
    results := [(⟨0⟩, ⟨0⟩)]
    next_inst := 2
    next_value := 1 }
  layout := ⟨[(xb0, [⟨0⟩, ⟨1⟩])]⟩
  next_block := 1

/-- Like `insimExample` but with the constant equal to two, so the
conditional drive is deleted without replacement. -/
def insimExample2 : UnitSt where
  dfg := {
    insts := [(⟨0⟩, .ConstInt .ConstInt 2),
              (⟨1⟩, .Quaternary .DrvCond [⟨10⟩, ⟨11⟩, ⟨12⟩, ⟨0⟩])]
    values := [(⟨0⟩, .inst (.int 2) ⟨0⟩)]
    results := [(⟨0⟩, ⟨0⟩)]
    next_inst := 2
    next_value := 1 }
  layout := ⟨[(xb0, [⟨0⟩, ⟨1⟩])]⟩
  next_block := 1

theorem alookup_nil {κ β : Type} [DecidableEq κ] (k : κ) :
    alookup k ([] : List (κ × β)) = none :=
  rfl

theorem alookup_cons {κ β : Type} [DecidableEq κ] (k k' : κ) (v : β) (l : List (κ × β)) :
    alookup k ((k', v) :: l) = if k' = k then some v else alookup k l :=
  rfl

theorem alookup_append {κ β : Type} [DecidableEq κ] (k : κ) (l₁ l₂ : List (κ × β)) :
    alookup k (l₁ ++ l₂) =
      match alookup k l₁ with
      | some v => some v
      | none => alookup k l₂ := by
  induction l₁ with
  | nil => rfl
  | cons p t ih =>
    obtain ⟨k', v⟩ := p
    by_cases h : k' = k <;> simp [alookup, h, ih]

theorem alookup_aremove_self {κ β : Type} [DecidableEq κ] (k : κ) (l : List (κ × β)) :
    alookup k (aremove k l) = none := by
  induction l with
  | nil => rfl
  | cons p t ih =>
    obtain ⟨a, v⟩ := p
    by_cases h : a = k <;> simp [aremove, alookup, h, ih]

theorem alookup_aremove_ne {κ β : Type} [DecidableEq κ] (k k' : κ) (l : List (κ × β))
    (h : k' ≠ k) : alookup k' (aremove k l) = alookup k' l := by
  induction l with
  | nil => rfl
  | cons p t ih =>
    obtain ⟨a, v⟩ := p
    by_cases ha : a = k
    · subst ha
      have hak : ¬a = k' := fun hh => h hh.symm
      simp [aremove, alookup, hak, ih]
    · by_cases hb : a = k' <;> simp [aremove, alookup, ha, hb, h, ih]

theorem alookup_aupdate_ne {κ β : Type} [DecidableEq κ] (k k' : κ) (v : β)
    (l : List (κ × β)) (h : k' ≠ k) : alookup k' (aupdate k v l) = alookup k' l := by
  induction l with
  | nil => rfl
  | cons p t ih =>
    obtain ⟨a, w⟩ := p
    by_cases ha : a = k
    · subst ha
      have hak : ¬a = k' := fun hh => h hh.symm
      simp [aupdate, alookup, hak, ih]
    · by_cases hb : a = k' <;> simp [aupdate, alookup, ha, hb, h, ih]

theorem alookup_aupdate_self {κ β : Type} [DecidableEq κ] (k : κ) (v : β)
    (l : List (κ × β)) (h : (alookup k l).isSome) :
    alookup k (aupdate k v l) = some v := by
  induction l with
  | nil => simp [alookup] at h
  | cons p t ih =>
    obtain ⟨a, w⟩ := p
    by_cases ha : a = k
    · simp [aupdate, alookup, ha]
    · simp [aupdate, alookup, ha] at h ⊢
      exact ih h

theorem alookup_ainsert_self {κ β : Type} [DecidableEq κ] (k : κ) (v : β)
    (l : List (κ × β)) : alookup k (ainsert k v l) = some v := by
  unfold ainsert
  by_cases h : (alookup k l).isSome
  · simp [h, alookup_aupdate_self k v l h]
  · simp [h, alookup]

theorem alookup_ainsert_ne {κ β : Type} [DecidableEq κ] (k k' : κ) (v : β)
    (l : List (κ × β)) (h : k' ≠ k) : alookup k' (ainsert k v l) = alookup k' l := by
  unfold ainsert
  by_cases hs : (alookup k l).isSome
  · simp [hs, alookup_aupdate_ne k k' v l h]
  · have hk : ¬k = k' := fun hh => h hh.symm
    simp [hs, alookup, hk]

theorem alookup_aupdateWith_self {κ β : Type} [DecidableEq κ] (k : κ) (g : β → β)
    (l : List (κ × β)) : alookup k (aupdateWith k g l) = (alookup k l).map g := by
  induction l with
  | nil => rfl
  | cons p t ih =>
    obtain ⟨a, v⟩ := p
    by_cases h : a = k <;> simp [aupdateWith, alookup, h, ih]

theorem alookup_aupdateWith_ne {κ β : Type} [DecidableEq κ] (k k' : κ) (g : β → β)
    (l : List (κ × β)) (h : k' ≠ k) :
    alookup k' (aupdateWith k g l) = alookup k' l := by
  induction l with
  | nil => rfl
  | cons p t ih =>
    obtain ⟨a, v⟩ := p
    by_cases ha : a = k
    · subst ha
      have hak : ¬a = k' := fun hh => h hh.symm
      simp [aupdateWith, alookup, hak, ih]
    · by_cases hb : a = k' <;> simp [aupdateWith, alookup, ha, hb, h, ih]

theorem alookup_amapValues {κ β : Type} [DecidableEq κ] (k : κ) (g : β → β)
    (l : List (κ × β)) : alookup k (amapValues g l) = (alookup k l).map g := by
  induction l with
  | nil => rfl
  | cons p t ih =>
    obtain ⟨a, v⟩ := p
    by_cases h : a = k <;> simp [amapValues, alookup, h, ih]

theorem lmem_iff {α : Type} [DecidableEq α] (x : α) (l : List α) :
    lmem x l = true ↔ x ∈ l := by
  simp [lmem]

theorem listInsertAfter_of_not_mem {α : Type} [DecidableEq α] (x a : α) (l : List α)
    (h : a ∉ l) : listInsertAfter x a l = l := by
  induction l with
  | nil => rfl
  | cons b t ih =>
    simp only [List.mem_cons, not_or] at h
    have hb : ¬b = a := fun hh => h.1 hh.symm
    simp [listInsertAfter, hb, ih h.2]

theorem listInsertAfter_last {α : Type} [DecidableEq α] (x a : α) (init tail : List α)
    (h : a ∉ init) : listInsertAfter x a (init ++ a :: tail) = init ++ a :: x :: tail := by
  induction init with
  | nil => simp [listInsertAfter]
  | cons b t ih =>
    simp only [List.mem_cons, not_or] at h
    have hb : ¬b = a := fun hh => h.1 hh.symm
    simp [listInsertAfter, hb, ih h.2]

theorem lremove_of_not_mem {α : Type} [DecidableEq α] (a : α) (l : List α)
    (h : a ∉ l) : lremove a l = l := by
  induction l with
  | nil => rfl
  | cons b t ih =>
    simp only [List.mem_cons, not_or] at h
    have hb : ¬b = a := fun hh => h.1 hh.symm
    simp [lremove, hb, ih h.2]

theorem not_mem_lremove {α : Type} [DecidableEq α] (a : α) (l : List α) :
    a ∉ lremove a l := by
  induction l with
  | nil => simp [lremove]
  | cons b t ih =>
    by_cases h : b = a
    · simpa [lremove, h] using ih
    · simp [lremove, h, ih]
      exact fun hh => h hh.symm

theorem mem_lremove_of_mem {α : Type} [DecidableEq α] (a x : α) (l : List α)
    (hmem : x ∈ l) (hne : x ≠ a) : x ∈ lremove a l := by
  induction l with
  | nil => simp at hmem
  | cons b t ih =>
    rcases List.mem_cons.mp hmem with hb | ht
    · subst hb
      simp [lremove, hne]
    · by_cases h : b = a <;> simp [lremove, h, ih ht]

theorem lremove_append {α : Type} [DecidableEq α] (a : α) (l₁ l₂ : List α) :
    lremove a (l₁ ++ l₂) = lremove a l₁ ++ lremove a l₂ := by
  induction l₁ with
  | nil => rfl
  | cons b t ih =>
    by_cases h : b = a <;> simp [lremove, h, ih]

theorem FunctionLayout.insts_def (l : FunctionLayout) (bb : Block) :
    l.insts bb = (alookup bb l.bbs).getD [] :=
  rfl

theorem alookup_append_inst_self (l : FunctionLayout) (i : Inst) (bb : Block) :
    alookup bb (l.append_inst i bb).bbs = (alookup bb l.bbs).map (fun li => li ++ [i]) :=
  alookup_aupdateWith_self bb _ l.bbs

theorem alookup_append_inst_ne (l : FunctionLayout) (i : Inst) (bb bb' : Block)
    (h : bb' ≠ bb) : alookup bb' (l.append_inst i bb).bbs = alookup bb' l.bbs :=
  alookup_aupdateWith_ne bb bb' _ l.bbs h

theorem alookup_prepend_inst_self (l : FunctionLayout) (i : Inst) (bb : Block) :
    alookup bb (l.prepend_inst i bb).bbs = (alookup bb l.bbs).map (fun li => i :: li) :=
  alookup_aupdateWith_self bb _ l.bbs

theorem alookup_insert_after (l : FunctionLayout) (x o : Inst) (bb : Block) :
    alookup bb (l.insert_inst_after x o).bbs =
      (alookup bb l.bbs).map (listInsertAfter x o) :=
  alookup_amapValues bb _ l.bbs

theorem alookup_remove_inst (l : FunctionLayout) (x : Inst) (bb : Block) :
    alookup bb (l.remove_inst x).bbs = (alookup bb l.bbs).map (lremove x) :=
  alookup_amapValues bb _ l.bbs

theorem alookup_append_block (l : FunctionLayout) (bb b : Block) :
    alookup bb (l.append_block b).bbs =
      match alookup bb l.bbs with
      | some li => some li
      | none => if b = bb then some [] else none := by
  show alookup bb (l.bbs ++ [(b, [])]) = _
  rw [alookup_append]
  cases alookup bb l.bbs <;> simp [alookup]

theorem build_inst_fst (u : UnitSt) (pos : InsertPos) (data : InstData) (ty : Ty) :
    (u.build_inst pos data ty).1 = ⟨u.dfg.next_inst⟩ := by
  unfold UnitSt.build_inst DataFlowGraph.add_inst
  cases hv : ty.is_void <;> simp [hv]

theorem build_inst_void_dfg (u : UnitSt) (pos : InsertPos) (data : InstData) :
    ((u.build_inst pos data .void).2).dfg =
      { u.dfg with
        insts := (⟨u.dfg.next_inst⟩, data) :: u.dfg.insts
        next_inst := u.dfg.next_inst + 1 } :=
  rfl

theorem build_inst_after_layout (u : UnitSt) (o : Inst) (data : InstData) (ty : Ty) :
    ((u.build_inst (.After o) data ty).2).layout =
      u.layout.insert_inst_after ⟨u.dfg.next_inst⟩ o := by
  unfold UnitSt.build_inst DataFlowGraph.add_inst
  cases hv : ty.is_void <;> simp [hv]

theorem build_inst_next_block (u : UnitSt) (pos : InsertPos) (data : InstData) (ty : Ty) :
    ((u.build_inst pos data ty).2).next_block = u.next_block := by
  unfold UnitSt.build_inst DataFlowGraph.add_inst
  cases hv : ty.is_void <;> simp [hv]

theorem build_inst_void_next_inst (u : UnitSt) (pos : InsertPos) (data : InstData) :
    ((u.build_inst pos data .void).2).dfg.next_inst = u.dfg.next_inst + 1 :=
  rfl

/-- C3 — counterexample.  The claim requires `valid_in_function` to
return false on `Wait`, but the source's match in `Opcode::valid_in` has
no arm for `Wait`, which therefore falls through to `UnitFlags::ALL`, so
`valid_in_function` returns true. -/
theorem c3_wait_valid_in_function_counterexample :
    Opcode.Wait.valid_in_function = true :=
  rfl

/-- C3 — amended.  `valid_in_function` returns false for `Halt`, `Con`,
`Del` and `Reg`, and true for `Ret`, `RetValue`, `Br` and `BrCond`; but
contrary to the claim it also returns true for `Wait`, `WaitTime` and
`Drv`, which fall through to the `UnitFlags::ALL` arm of `valid_in`. -/
theorem c3_valid_in_function_table :
    Opcode.Halt.valid_in_function = false ∧
    Opcode.Con.valid_in_function = false ∧
    Opcode.Del.valid_in_function = false ∧
    Opcode.Reg.valid_in_function = false ∧
    Opcode.Ret.valid_in_function = true ∧
    Opcode.RetValue.valid_in_function = true ∧
    Opcode.Br.valid_in_function = true ∧
    Opcode.BrCond.valid_in_function = true ∧
    Opcode.Wait.valid_in_function = true ∧
    Opcode.WaitTime.valid_in_function = true ∧
    Opcode.Drv.valid_in_function = true := by
  decide

/-- C9.  `ext_field` and `ext_slice` store the sentinel `Value::invalid()`
in the second argument slot of their `InsExt` data, yet `args()` exposes
exactly the one real argument, and `replace_value` (which writes through
`args_mut()`) never rewrites the hidden sentinel slot — even when asked
to replace `Value::invalid()` itself. -/
theorem c9_ext_field_slice_hide_invalid (x : Value) (imm imm0 imm1 : Nat)
    (vfrom vto : Value) :
    (ext_field_data x imm).raw_args = [x, Value.invalid] ∧
    (ext_field_data x imm).args = [x] ∧
    ((ext_field_data x imm).replace_value vfrom vto).1.raw_args.get? 1 =
      some Value.invalid ∧
    (ext_slice_data x imm0 imm1).raw_args = [x, Value.invalid] ∧
    (ext_slice_data x imm0 imm1).args = [x] ∧
    ((ext_slice_data x imm0 imm1).replace_value vfrom vto).1.raw_args.get? 1 =
      some Value.invalid := by
  refine ⟨rfl, rfl, ?_, rfl, rfl, ?_⟩ <;>
    simp [ext_field_data, ext_slice_data, InstData.replace_value, InstData.raw_args]

theorem uniquify_run_cons (w : WriterSt) (a : Option String) (b : Bool)
    (rest : List (Option String × Bool)) :
    w.uniquify_run ((a, b) :: rest) =
      (w.uniquify_name a b).1 :: (w.uniquify_name a b).2.uniquify_run rest :=
  rfl

theorem uniquify_name_hit (c0 i : Nat) (x : String) (g : Bool) :
    WriterSt.uniquify_name ⟨[⟨c0, [(x, i)]⟩]⟩ (some x) g =
      ((if g then "@" else "%") ++ x ++ toString i, ⟨[⟨c0, [(x, i + 1)]⟩]⟩) := by
  simp [WriterSt.uniquify_name, alookup, aupdate]

theorem uniquify_name_fresh_single (c0 : Nat) (x : String) (g : Bool) :
    WriterSt.uniquify_name ⟨[⟨c0, []⟩]⟩ (some x) g =
      ((if g then "@" else "%") ++ x, ⟨[⟨c0, [(x, 0)]⟩]⟩) :=
  rfl

theorem uniquify_name_unnamed (c : Nat) (names : List (String × Nat)) (g : Bool) :
    WriterSt.uniquify_name ⟨[⟨c, names⟩]⟩ none g =
      ("%" ++ toString c, ⟨[⟨c + 1, names⟩]⟩) :=
  rfl

theorem uniquify_run_named_counter (x : String) (g : Bool) (c0 : Nat) (n i : Nat) :
    WriterSt.uniquify_run ⟨[⟨c0, [(x, i)]⟩]⟩ (List.replicate n (some x, g)) =
      (List.range n).map (fun j => (if g then "@" else "%") ++ x ++ toString (i + j)) := by
  induction n generalizing i with
  | zero => rfl
  | succ n ih =>
    rw [List.replicate_succ, uniquify_run_cons, uniquify_name_hit, ih,
      List.range_succ_eq_map]
    simp only [List.map_cons, List.map_map, Function.comp_def, Nat.add_zero]
    refine congrArg₂ _ rfl ?_
    refine List.map_congr_left ?_
    intro a _
    have h : i + 1 + a = i + Nat.succ a := by omega
    rw [h]

theorem uniquify_run_unnamed (g : Bool) (names : List (String × Nat)) (c : Nat)
    (n : Nat) :
    WriterSt.uniquify_run ⟨[⟨c, names⟩]⟩ (List.replicate n (none, g)) =
      (List.range n).map (fun j => "%" ++ toString (c + j)) := by
  induction n generalizing c with
  | zero => rfl
  | succ n ih =>
    rw [List.replicate_succ, uniquify_run_cons, uniquify_name_unnamed, ih,
      List.range_succ_eq_map]
    simp only [List.map_cons, List.map_map, Function.comp_def, Nat.add_zero]
    refine congrArg₂ _ rfl ?_
    refine List.map_congr_left ?_
    intro a _
    have h : c + 1 + a = c + Nat.succ a := by omega
    rw [h]

/-- C8 — counterexample.  Requesting the same name `x` twice in one
namespace yields `%x` and then `%x0`, not `%x1`: the first collision
appends the stored counter 0 before incrementing it
(`src/assembly.rs` lines 70-74), so the suffix numbering starts at 0,
not at 1 as the claim states. -/
theorem c8_uniquify_counterexample :
    WriterSt.uniquify_run WriterSt.new [(some "x", false), (some "x", false)] =
      ["%x", "%x0"] ∧ ("%x0" : String) ≠ "%x1" := by
  constructor
  · rfl
  · decide

/-- C8 — amended.  Within one namespace, the first request for name `x`
yields the bare prefixed name and the k-th colliding request yields the
name suffixed with a counter starting at 0 (the sequence is `%x, %x0,
%x1, …`); unnamed values receive `%c, %(c+1), …` from the namespace's
unnamed counter. -/
theorem c8_uniquify_name_sequences (n c0 : Nat) (x : String) (g : Bool) :
    WriterSt.uniquify_run ⟨[⟨c0, []⟩]⟩ (List.replicate (n + 1) (some x, g)) =
      ((if g then "@" else "%") ++ x) ::
        (List.range n).map (fun j => (if g then "@" else "%") ++ x ++ toString j) ∧
    WriterSt.uniquify_run ⟨[⟨c0, []⟩]⟩ (List.replicate n (none, g)) =
      (List.range n).map (fun j => "%" ++ toString (c0 + j)) := by
  constructor
  · rw [List.replicate_succ, uniquify_run_cons, uniquify_name_fresh_single,
      uniquify_run_named_counter]
    simp
  · exact uniquify_run_unnamed g [] c0 n

theorem add_inst_result_some (dfg : DataFlowGraph) (data : InstData) (ty : Ty)
    (h : ty.is_void = false) :
    ((dfg.add_inst data ty).2).get_inst_result (dfg.add_inst data ty).1 =
      some ⟨dfg.next_value⟩ := by
  unfold DataFlowGraph.add_inst DataFlowGraph.get_inst_result
  simp [h, alookup]

theorem add_inst_value_type (dfg : DataFlowGraph) (data : InstData) (ty : Ty)
    (h : ty.is_void = false) :
    ((dfg.add_inst data ty).2).value_type ⟨dfg.next_value⟩ = some ty := by
  unfold DataFlowGraph.add_inst DataFlowGraph.value_type
  simp [h, alookup, ValueData.ty]

theorem add_inst_result_none (dfg : DataFlowGraph) (data : InstData) (ty : Ty)
    (h : ty.is_void = true)
    (hres : alookup (⟨dfg.next_inst⟩ : Inst) dfg.results = none) :
    ((dfg.add_inst data ty).2).get_inst_result (dfg.add_inst data ty).1 = none := by
  unfold DataFlowGraph.add_inst DataFlowGraph.get_inst_result
  simp [h, hres]

theorem Ty.is_signal_iff (t : Ty) : t.is_signal = true ↔ ∃ s, t = .signal s := by
  cases t <;> simp [Ty.is_signal]

theorem entity_build_inst_fst (u : EntitySt) (pos : EntityPos) (data : InstData)
    (ty : Ty) :
    (u.build_inst pos data ty).1 = (u.dfg.add_inst data (entity_result_ty data ty)).1 :=
  rfl

theorem entity_build_inst_dfg (u : EntitySt) (pos : EntityPos) (data : InstData)
    (ty : Ty) :
    ((u.build_inst pos data ty).2).dfg =
      (u.dfg.add_inst data (entity_result_ty data ty)).2 :=
  rfl

/-- C5.  For `EntityBuilder::build_inst`: when the requested result type
is neither a signal nor void and the opcode is not a constant, the
allocated result value has type `signal(ty)`; when the type is already a
signal or the opcode is a constant (and the type is not void), the result
keeps type `ty`; a void type allocates no result; and consequently every
non-constant, non-void instruction built into an entity has a
signal-typed result. -/
theorem c5_entity_build_inst_signal_lift (u : EntitySt) (pos : EntityPos)
    (data : InstData) (ty : Ty)
    (hres : ∀ i : Inst, (alookup i u.dfg.results).isSome → i.id < u.dfg.next_inst) :
    (ty.is_signal = false → ty.is_void = false → data.opcode.is_const = false →
      ((u.build_inst pos data ty).2).dfg.get_inst_result (u.build_inst pos data ty).1 =
          some ⟨u.dfg.next_value⟩ ∧
        ((u.build_inst pos data ty).2).dfg.value_type ⟨u.dfg.next_value⟩ =
          some (signal_ty ty)) ∧
    ((ty.is_signal = true ∨ data.opcode.is_const = true) → ty.is_void = false →
      ((u.build_inst pos data ty).2).dfg.get_inst_result (u.build_inst pos data ty).1 =
          some ⟨u.dfg.next_value⟩ ∧
        ((u.build_inst pos data ty).2).dfg.value_type ⟨u.dfg.next_value⟩ = some ty) ∧
    (ty.is_void = true →
      ((u.build_inst pos data ty).2).dfg.get_inst_result (u.build_inst pos data ty).1 =
        none) ∧
    (data.opcode.is_const = false → ty.is_void = false →
      ∃ s, ((u.build_inst pos data ty).2).dfg.value_type ⟨u.dfg.next_value⟩ =
        some (.signal s)) := by
  have hnone : alookup (⟨u.dfg.next_inst⟩ : Inst) u.dfg.results = none := by
    cases hl : alookup (⟨u.dfg.next_inst⟩ : Inst) u.dfg.results with
    | none => rfl
    | some v =>
      have := hres ⟨u.dfg.next_inst⟩ (by simp [hl])
      exact absurd this (Nat.lt_irrefl _)
  refine ⟨?_, ?_, ?_, ?_⟩
  · intro hsig hvoid hconst
    have hty : entity_result_ty data ty = signal_ty ty := by
      simp [entity_result_ty, hsig, hvoid, hconst]
    rw [entity_build_inst_fst, entity_build_inst_dfg, hty]
    exact ⟨add_inst_result_some _ _ _ rfl, add_inst_value_type _ _ _ rfl⟩
  · intro hkeep hvoid
    have hty : entity_result_ty data ty = ty := by
      rcases hkeep with hsig | hconst
      · simp [entity_result_ty, hsig]
      · simp [entity_result_ty, hconst]
    rw [entity_build_inst_fst, entity_build_inst_dfg, hty]
    exact ⟨add_inst_result_some _ _ _ hvoid, add_inst_value_type _ _ _ hvoid⟩
  · intro hvoid
    have hty : entity_result_ty data ty = ty := by
      simp [entity_result_ty, hvoid]
    rw [entity_build_inst_fst, entity_build_inst_dfg, hty]
    exact add_inst_result_none _ _ _ hvoid hnone
  · intro hconst hvoid
    cases hsig : ty.is_signal with
    | false =>
      have hty : entity_result_ty data ty = signal_ty ty := by
        simp [entity_result_ty, hsig, hvoid, hconst]
      rw [entity_build_inst_dfg, hty]
      exact ⟨ty, add_inst_value_type _ _ _ rfl⟩
    | true =>
      obtain ⟨s, hs⟩ := (Ty.is_signal_iff ty).mp hsig
      have hty : entity_result_ty data ty = ty := by
        simp [entity_result_ty, hsig]
      rw [entity_build_inst_dfg, hty, hs]
      exact ⟨s, add_inst_value_type _ _ _ (by rw [hs] at hvoid; exact hvoid)⟩

/-- C5 — witness: building `add i8 %a, %b` into an empty entity lifts
the result type to `i8$`. -/
theorem c5_entity_build_inst_signal_lift_witness :
    ((entExample.build_inst .Append (.Binary .Add [⟨5⟩, ⟨6⟩]) (.int 8)).2).dfg.value_type
        ⟨0⟩ = some (signal_ty (.int 8)) := by
  have h := c5_entity_build_inst_signal_lift entExample .Append
    (.Binary .Add [⟨5⟩, ⟨6⟩]) (.int 8) (by intro i hi; simp [entExample, DataFlowGraph.empty, alookup] at hi)
  exact (h.1 rfl rfl rfl).2

theorem mem_listInsertAfter_self {α : Type} [DecidableEq α] (x a : α) (l : List α)
    (h : a ∈ l) : x ∈ listInsertAfter x a l := by
  induction l with
  | nil => simp at h
  | cons b t ih =>
    by_cases hb : b = a
    · simp [listInsertAfter, hb]
    · rcases List.mem_cons.mp h with hba | ht
      · exact absurd hba.symm hb
      · simp [listInsertAfter, hb, ih ht]

/-- C10.  In `InstSimplification::run_on_inst`, a `DrvCond` whose
condition argument is a constant integer is always removed, and an
unconditional `Drv` with the same signal, value and delay is created in
its block if and only if the constant equals one; for any other constant
(zero, two, …) the conditional drive is deleted without replacement. -/
theorem c10_insim_drv_cond (u : UnitSt) (inst : Inst) (sig val del cond : Value)
    (k : Int)
    (hdata : u.dfg.inst_data inst = some (.Quaternary .DrvCond [sig, val, del, cond]))
    (hconst : u.dfg.get_const_int cond = some k)
    (hlt : inst.id < u.dfg.next_inst) :
    (insim_run_on_inst u inst).dfg.inst_data inst = none ∧
    (∀ bb : Block, inst ∉ (insim_run_on_inst u inst).layout.insts bb) ∧
    (k = 1 →
      (insim_run_on_inst u inst).dfg.inst_data ⟨u.dfg.next_inst⟩ =
          some (.Ternary .Drv [sig, val, del]) ∧
      ∀ bb : Block, inst ∈ u.layout.insts bb →
        (⟨u.dfg.next_inst⟩ : Inst) ∈ (insim_run_on_inst u inst).layout.insts bb) ∧
    (k ≠ 1 → insim_run_on_inst u inst = u.remove_inst inst) := by
  have hne : (⟨u.dfg.next_inst⟩ : Inst) ≠ inst := by
    intro hh
    rw [← hh] at hlt
    exact Nat.lt_irrefl _ hlt
  have hrun : insim_run_on_inst u inst =
      if k = 1 then
        ((u.build_inst (.After inst) (.Ternary .Drv [sig, val, del]) .void).2).remove_inst
          inst
      else u.remove_inst inst := by
    simp only [insim_run_on_inst, hdata, InstData.opcode, InstData.args, List.get?,
      Option.some_bind, hconst, if_pos rfl]
    by_cases hk : k = 1 <;> simp [hk]
  by_cases hk : k = 1
  · subst hk
    rw [hrun, if_pos rfl]
    set u2 := (u.build_inst (.After inst) (.Ternary .Drv [sig, val, del]) .void).2 with hu2
    refine ⟨?_, ?_, ?_, ?_⟩
    · exact alookup_aremove_self inst u2.dfg.insts
    · intro bb
      show inst ∉ (u2.layout.remove_inst inst).insts bb
      rw [FunctionLayout.insts_def, alookup_remove_inst]
      cases alookup bb u2.layout.bbs with
      | none => simp
      | some l => simpa using not_mem_lremove inst l
    · intro _
      constructor
      · show alookup _ (aremove inst u2.dfg.insts) = _
        rw [alookup_aremove_ne _ _ _ hne, hu2, build_inst_void_dfg]
        simp [alookup]
      · intro bb hmem
        rw [FunctionLayout.insts_def] at hmem
        show (⟨u.dfg.next_inst⟩ : Inst) ∈ (u2.layout.remove_inst inst).insts bb
        rw [FunctionLayout.insts_def, alookup_remove_inst, hu2,
          build_inst_after_layout, alookup_insert_after]
        cases hl : alookup bb u.layout.bbs with
        | none => rw [hl] at hmem; simp at hmem
        | some l =>
          rw [hl] at hmem
          simp only [Option.getD_some] at hmem
          simp only [Option.map_some', Option.getD_some]
          exact mem_lremove_of_mem _ _ _
            (mem_listInsertAfter_self _ _ _ hmem) hne
    · intro hk1
      exact absurd rfl hk1
  · rw [hrun, if_neg hk]
    refine ⟨alookup_aremove_self inst u.dfg.insts, ?_, fun hk1 => absurd hk1 hk,
      fun _ => rfl⟩
    intro bb
    show inst ∉ (u.layout.remove_inst inst).insts bb
    rw [FunctionLayout.insts_def, alookup_remove_inst]
    cases alookup bb u.layout.bbs with
    | none => simp
    | some l => simpa using not_mem_lremove inst l

/-- C10 — witness: on a unit holding `drv_cond %10, %11, %12 if %0` with
`%0 = const i1 1`, the simplifier removes the conditional drive and
creates `drv %10, %11, %12`; and with `%0 = const i1 2` it removes the
drive without replacement. -/
theorem c10_insim_drv_cond_witness :
    ((insim_run_on_inst insimExample ⟨1⟩).dfg.inst_data ⟨1⟩ = none ∧
      (insim_run_on_inst insimExample ⟨1⟩).dfg.inst_data ⟨2⟩ =
        some (.Ternary .Drv [⟨10⟩, ⟨11⟩, ⟨12⟩])) ∧
    insim_run_on_inst insimExample2 ⟨1⟩ = insimExample2.remove_inst ⟨1⟩ := by
  have h1 := c10_insim_drv_cond insimExample ⟨1⟩ ⟨10⟩ ⟨11⟩ ⟨12⟩ ⟨0⟩ 1
    (by rfl) (by rfl) (by decide)
  have h2 := c10_insim_drv_cond insimExample2 ⟨1⟩ ⟨10⟩ ⟨11⟩ ⟨12⟩ ⟨0⟩ 2
    (by rfl) (by rfl) (by decide)
  exact ⟨⟨h1.1, (h1.2.2.1 rfl).1⟩, h2.2.2.2 (by decide)⟩

theorem drive_cond_chain_eval (env : Value → Bool) (acc : CExpr)
    (l : List (Value × Bool)) :
    (l.foldl (fun acc vp => CExpr.andE acc (if vp.2 then .lit vp.1 else .notE vp.1))
        acc).eval env =
      (acc.eval env && l.all (fun vp => if vp.2 then env vp.1 else !env vp.1)) := by
  induction l generalizing acc with
  | nil => simp
  | cons vp t ih =>
    obtain ⟨v, pol⟩ := vp
    cases pol <;> simp [List.foldl_cons, ih, CExpr.eval, Bool.and_assoc]

/-- C2 — counterexample.  Running the dominator-tree walk of
`push_drive` on a CFG whose parent block ends in
`br_cond v, block1, block2` with the source finger equal to the *first*
target `block1` records the pair `(v, false)`: the source compares the
finger's position against 0 (`cond_pol != 0`), so a finger equal to the
first target yields side `false`, not `true` as the claim states. -/
theorem c2_walk_polarity_counterexample :
    walk_conds walkDt walkTerm xb0 10 xb1 xb0 [] = some [(xv0, false)] ∧
    some [(xv0, false)] ≠ some [(xv0, true)] := by
  exact ⟨rfl, by decide⟩

/-- C7.  When the checking phase of `push_drive` fails for some tail
block (an argument or branch condition does not dominate it, or no
common dominator is reached), `push_drive` returns false with the unit
bit-for-bit unchanged — the drive is not removed and no instruction is
inserted — and the drive loop for that signal stops without touching the
remaining (earlier) drives. -/
theorem c7_push_drive_failure (dt : DomTree) (trg : TrgInfo) (u : UnitSt)
    (drive : Inst) (fuel : Nat) (rest : List Inst) (modified : Bool) (src_bb : Block)
    (hblk : u.layout.inst_block drive = some src_bb)
    (hfail : drive_moves dt u drive src_bb fuel (trg.tails_of src_bb) = none)
    (htail : trg.is_tail src_bb = false)
    (htails : (trg.tails_of src_bb).isEmpty = false) :
    push_drive dt trg u drive fuel = (false, u) ∧
    push_drives_go dt trg u modified fuel (drive :: rest) = (modified, u) := by
  have h1 : push_drive dt trg u drive fuel = (false, u) := by
    unfold push_drive
    rw [hblk]
    show (match drive_moves dt u drive src_bb fuel (trg.tails_of src_bb) with
      | none => ((false : Bool), u)
      | some moves => (true, (push_drive_apply u drive moves).remove_inst drive)) =
        (false, u)
    rw [hfail]
  refine ⟨h1, ?_⟩
  unfold push_drives_go
  rw [hblk]
  simp [htail, htails, h1]

/-- C7 — witness: a drive whose arguments dominate no block cannot be
sunk; `push_drive` returns false leaving the unit unchanged and the
drive loop stops. -/
theorem c7_push_drive_failure_witness :
    push_drive pdDt pdTrg pdExample ⟨0⟩ 5 = (false, pdExample) ∧
    push_drives_go pdDt pdTrg pdExample false 5 [⟨0⟩] = (false, pdExample) :=
  c7_push_drive_failure pdDt pdTrg pdExample ⟨0⟩ 5 [] false xb0 rfl rfl rfl rfl

theorem trg_visit_promoted (tr : Nat) (bb target : Block) (s : TrgSt)
    (hinv : ∀ b : Block, (alookup b s.blocks).isSome → b ∈ s.seen) :
    (trg_visit tr bb s target).promoted = s.promoted ∧
    (∀ b : Block, (alookup b (trg_visit tr bb s target).blocks).isSome →
      b ∈ (trg_visit tr bb s target).seen) := by
  by_cases hs : lmem target s.seen
  · unfold trg_visit
    rw [if_pos hs]
    exact ⟨rfl, hinv⟩
  · have hmem : target ∉ s.seen := by
      intro hm
      exact hs ((lmem_iff target s.seen).mpr hm)
    have hold : alookup target s.blocks = none := by
      cases h : alookup target s.blocks with
      | none => rfl
      | some v => exact absurd (hinv target (by simp [h])) hmem
    unfold trg_visit
    rw [if_neg hs]
    simp only [hold]
    refine ⟨by trivial, ?_⟩
    intro b hb
    by_cases hbt : b = target
    · subst hbt
      simp
    · rw [alookup_ainsert_ne _ _ _ _ hbt] at hb
      exact List.mem_append_left _ (hinv b hb)

theorem trg_fold_promoted (tr : Nat) (bb : Block) (targets : List Block) (s : TrgSt)
    (hinv : ∀ b : Block, (alookup b s.blocks).isSome → b ∈ s.seen) :
    (targets.foldl (trg_visit tr bb) s).promoted = s.promoted ∧
    (∀ b : Block, (alookup b (targets.foldl (trg_visit tr bb) s).blocks).isSome →
      b ∈ (targets.foldl (trg_visit tr bb) s).seen) := by
  induction targets generalizing s with
  | nil => exact ⟨rfl, hinv⟩
  | cons t ts ih =>
    have h := trg_visit_promoted tr bb t s hinv
    have h2 := ih (trg_visit tr bb s t) h.2
    exact ⟨h2.1.trans h.1, h2.2⟩

theorem trg_bfs_cons (cfg : List (Block × InstData)) (n : Nat) (bb : Block)
    (todo seen : List Block) (blocks : List (Block × Nat)) (hbs tbs : List Block)
    (ni : Nat) (pr : List Block) :
    trg_bfs cfg (n + 1) ⟨bb :: todo, seen, blocks, hbs, tbs, ni, pr⟩ =
      (match alookup bb cfg with
       | none => trg_bfs cfg n ⟨todo, seen, blocks, hbs, tbs, ni, pr⟩
       | some term =>
         if term.opcode.is_temporal then
           trg_bfs cfg n ⟨todo, seen, blocks, hbs, tbs ++ [bb], ni, pr⟩
         else
           trg_bfs cfg n (term.blocks.foldl
             (trg_visit ((alookup bb blocks).getD 0) bb)
             ⟨todo, seen, blocks, hbs, tbs, ni, pr⟩)) :=
  rfl

theorem trg_bfs_cons_none (cfg : List (Block × InstData)) (n : Nat) (bb : Block)
    (todo seen : List Block) (blocks : List (Block × Nat)) (hbs tbs : List Block)
    (ni : Nat) (pr : List Block) (h : alookup bb cfg = none) :
    trg_bfs cfg (n + 1) ⟨bb :: todo, seen, blocks, hbs, tbs, ni, pr⟩ =
      trg_bfs cfg n ⟨todo, seen, blocks, hbs, tbs, ni, pr⟩ := by
  rw [trg_bfs_cons, h]

theorem trg_bfs_cons_some (cfg : List (Block × InstData)) (n : Nat) (bb : Block)
    (todo seen : List Block) (blocks : List (Block × Nat)) (hbs tbs : List Block)
    (ni : Nat) (pr : List Block) (term : InstData) (h : alookup bb cfg = some term) :
    trg_bfs cfg (n + 1) ⟨bb :: todo, seen, blocks, hbs, tbs, ni, pr⟩ =
      if term.opcode.is_temporal then
        trg_bfs cfg n ⟨todo, seen, blocks, hbs, tbs ++ [bb], ni, pr⟩
      else
        trg_bfs cfg n (term.blocks.foldl (trg_visit ((alookup bb blocks).getD 0) bb)
          ⟨todo, seen, blocks, hbs, tbs, ni, pr⟩) := by
  rw [trg_bfs_cons, h]

theorem trg_bfs_promoted (cfg : List (Block × InstData)) (fuel : Nat) :
    ∀ s : TrgSt, (∀ b : Block, (alookup b s.blocks).isSome → b ∈ s.seen) →
      (trg_bfs cfg fuel s).promoted = s.promoted := by
  induction fuel with
  | zero => intro s _; rfl
  | succ n ih =>
    intro s hinv
    obtain ⟨todo, seen, blocks, hbs, tbs, ni, pr⟩ := s
    cases todo with
    | nil => rfl
    | cons bb rest =>
      cases hterm : alookup bb cfg with
      | none =>
        rw [trg_bfs_cons_none cfg n bb rest seen blocks hbs tbs ni pr hterm]
        exact ih ⟨rest, seen, blocks, hbs, tbs, ni, pr⟩ hinv
      | some term =>
        rw [trg_bfs_cons_some cfg n bb rest seen blocks hbs tbs ni pr term hterm]
        by_cases htemp : term.opcode.is_temporal = true
        · rw [if_pos htemp]
          exact ih ⟨rest, seen, blocks, hbs, tbs ++ [bb], ni, pr⟩ hinv
        · rw [if_neg htemp]
          have hfold := trg_fold_promoted ((alookup bb blocks).getD 0) bb
            term.blocks ⟨rest, seen, blocks, hbs, tbs, ni, pr⟩ hinv
          rw [ih _ hfold.2]
          exact hfold.1

theorem alookup_seed_fold (b : Block) (seeds : List Block) :
    ∀ (acc : List (Block × Nat)) (n : Nat),
      (alookup b ((seeds.foldl
        (fun (p : List (Block × Nat) × Nat) bb => (ainsert bb p.2 p.1, p.2 + 1))
        (acc, n)).1)).isSome →
      b ∈ seeds ∨ (alookup b acc).isSome := by
  induction seeds with
  | nil => intro acc n h; exact Or.inr h
  | cons s0 ss ih =>
    intro acc n h
    rcases ih (ainsert s0 n acc) (n + 1) h with hss | hacc
    · exact Or.inl (List.mem_cons_of_mem _ hss)
    · by_cases hb : b = s0
      · exact Or.inl (hb ▸ List.mem_cons_self _ _)
      · rw [alookup_ainsert_ne _ _ _ _ hb] at hacc
        exact Or.inr hacc

/-- C1.  The promotion described by the claim never happens: in
`TemporalRegionGraph::new` the override branch
(`if blocks.insert(target, tr).is_some()`, lines 586-593) is guarded by
`seen.insert(target)`, and every block in the region map is already in
`seen`, so the branch is unreachable for every input CFG (first
conjunct).  On the concrete CFG `trgExample`, block 3 is reachable over
non-temporal edges from the seeds of regions 0 and 1, yet it simply
keeps region 0 — the region of the seed that reached it first — and no
fresh region is created (`next_id` stays 2). -/
theorem c1_trg_promotion_unreachable :
    (∀ cfg : List (Block × InstData), (trg_new cfg).promoted = []) ∧
    alookup xb3 (trg_new trgExample).blocks = some 0 ∧
    alookup xb0 (trg_new trgExample).blocks = some 0 ∧
    alookup xb2 (trg_new trgExample).blocks = some 1 ∧
    (trg_new trgExample).next_id = 2 ∧
    (trg_new trgExample).promoted = [] := by
  refine ⟨?_, rfl, rfl, rfl, rfl, rfl⟩
  intro cfg
  unfold trg_new
  rw [trg_bfs_promoted]
  intro b hb
  rcases alookup_seed_fold b (trg_seeds cfg) [] 0 hb with hm | habs
  · exact hm
  · simp [alookup] at habs

theorem alookup_mem {κ β : Type} [DecidableEq κ] (k : κ) (v : β) (l : List (κ × β))
    (h : alookup k l = some v) : (k, v) ∈ l := by
  induction l with
  | nil => simp [alookup] at h
  | cons p t ih =>
    obtain ⟨a, w⟩ := p
    by_cases ha : a = k
    · subst ha
      simp [alookup] at h
      simp [h]
    · simp [alookup, ha] at h
      exact List.mem_cons_of_mem _ (ih h)

theorem alookup_eq_none_of_keys {κ β : Type} [DecidableEq κ] (k : κ) (l : List (κ × β))
    (h : ∀ p ∈ l, p.1 ≠ k) : alookup k l = none := by
  induction l with
  | nil => rfl
  | cons p t ih =>
    obtain ⟨a, w⟩ := p
    have ha : a ≠ k := h (a, w) (List.mem_cons_self _ _)
    simp [alookup, ha]
    exact ih (fun q hq => h q (List.mem_cons_of_mem _ hq))

theorem mem_of_mem_lremove {α : Type} [DecidableEq α] (a x : α) (l : List α)
    (h : x ∈ lremove a l) : x ∈ l := by
  induction l with
  | nil => simp [lremove] at h
  | cons b t ih =>
    by_cases hb : b = a
    · simp [lremove, hb] at h
      exact List.mem_cons_of_mem _ (ih h)
    · simp [lremove, hb] at h
      rcases h with h | h
      · simp [h]
      · exact List.mem_cons_of_mem _ (ih h)

theorem mem_listInsertAfter_elim {α : Type} [DecidableEq α] (x t a : α) (l : List α)
    (h : x ∈ listInsertAfter t a l) : x ∈ l ∨ x = t := by
  induction l with
  | nil => simp [listInsertAfter] at h
  | cons b bt ih =>
    by_cases hb : b = a
    · simp [listInsertAfter, hb] at h
      rcases h with h | h | h
      · exact Or.inl (by simp [h, hb])
      · exact Or.inr h
      · exact Or.inl (List.mem_cons_of_mem _ h)
    · simp [listInsertAfter, hb] at h
      rcases h with h | h
      · exact Or.inl (by simp [h])
      · rcases ih h with hm | ht
        · exact Or.inl (List.mem_cons_of_mem _ hm)
        · exact Or.inr ht

theorem foldl_lremove_of_not_mem {α : Type} [DecidableEq α] (js : List α) (x : List α)
    (h : ∀ j ∈ js, j ∉ x) :
    js.foldl (fun acc j => lremove j acc) x = x := by
  induction js with
  | nil => rfl
  | cons j t ih =>
    rw [List.foldl_cons, lremove_of_not_mem j x (h j (List.mem_cons_self _ _))]
    exact ih (fun j' hj' => h j' (List.mem_cons_of_mem _ hj'))

theorem foldl_lremove_append_last {α : Type} [DecidableEq α] (js : List α) (x : List α)
    (t : α) (ht : ∀ j ∈ js, j ≠ t) :
    js.foldl (fun acc j => lremove j acc) (x ++ [t]) =
      js.foldl (fun acc j => lremove j acc) x ++ [t] := by
  induction js generalizing x with
  | nil => rfl
  | cons j jt ih =>
    rw [List.foldl_cons, List.foldl_cons, lremove_append,
      lremove_of_not_mem j [t] (by simp [ht j (List.mem_cons_self _ _)])]
    exact ih _ (fun j' hj' => ht j' (List.mem_cons_of_mem _ hj'))

theorem foldl_lremove_single {α : Type} [DecidableEq α] :
    ∀ (js : List α) (x : List α) (j0 : α), j0 ∈ js → (∀ j ∈ js, j ∉ x) →
      js.foldl (fun acc j => lremove j acc) (x ++ [j0]) = x := by
  intro js
  induction js with
  | nil => intro x j0 hj0 _; simp at hj0
  | cons j jt ih =>
    intro x j0 hj0 hx
    by_cases h : j = j0
    · subst h
      rw [List.foldl_cons, lremove_append, lremove_of_not_mem j x
        (hx j (List.mem_cons_self _ _))]
      simp [lremove]
      exact foldl_lremove_of_not_mem jt x (fun j' hj' => hx j' (List.mem_cons_of_mem _ hj'))
    · rw [List.foldl_cons, lremove_of_not_mem j (x ++ [j0]) (by
        simp only [List.mem_append, List.mem_singleton]
        rintro (hm | hm)
        · exact hx j (List.mem_cons_self _ _) hm
        · exact h hm)]
      have hj0' : j0 ∈ jt := by
        rcases List.mem_cons.mp hj0 with hh | hh
        · exact absurd hh.symm h
        · exact hh
      exact ih x j0 hj0' (fun j' hj' => hx j' (List.mem_cons_of_mem _ hj'))

theorem mem_foldl_lremove_sub {α : Type} [DecidableEq α] (js : List α) (l : List α)
    (x : α) (h : x ∈ js.foldl (fun acc j => lremove j acc) l) : x ∈ l := by
  induction js generalizing l with
  | nil => exact h
  | cons j jt ih =>
    rw [List.foldl_cons] at h
    exact mem_of_mem_lremove _ _ _ (ih _ h)

theorem not_mem_foldl_lremove {α : Type} [DecidableEq α] :
    ∀ (js : List α) (l : List α) (x : α), x ∈ js →
      x ∉ js.foldl (fun acc j => lremove j acc) l := by
  intro js
  induction js with
  | nil => intro l x h; simp at h
  | cons j jt ih =>
    intro l x h
    rw [List.foldl_cons]
    by_cases hx : x = j
    · subst hx
      intro hmem
      exact not_mem_lremove x l (mem_foldl_lremove_sub jt _ x hmem)
    · have hx' : x ∈ jt := by
        rcases List.mem_cons.mp h with hh | hh
        · exact absurd hh hx
        · exact hh
      exact ih _ x hx'

theorem remove_inst_dfg_insts (w : UnitSt) (j : Inst) :
    (w.remove_inst j).dfg.insts = aremove j w.dfg.insts :=
  rfl

theorem remove_inst_layout (w : UnitSt) (j : Inst) (bb : Block) :
    alookup bb (w.remove_inst j).layout.bbs = (alookup bb w.layout.bbs).map (lremove j) :=
  alookup_amapValues bb _ w.layout.bbs

theorem remove_fold_spec (js : List Inst) : ∀ (w : UnitSt), js.Nodup →
    (∀ j ∈ js,
      alookup j (js.foldl (fun u inst => u.remove_inst inst) w).dfg.insts = none) ∧
    (∀ k : Inst, k ∉ js →
      alookup k (js.foldl (fun u inst => u.remove_inst inst) w).dfg.insts =
        alookup k w.dfg.insts) ∧
    (∀ bb : Block,
      alookup bb (js.foldl (fun u inst => u.remove_inst inst) w).layout.bbs =
        (alookup bb w.layout.bbs).map
          (fun l => js.foldl (fun acc j => lremove j acc) l)) := by
  induction js with
  | nil =>
    intro w _
    refine ⟨by simp, fun k _ => rfl, fun bb => ?_⟩
    show alookup bb w.layout.bbs = _
    cases h : alookup bb w.layout.bbs <;> simp [h]
  | cons j jt ih =>
    intro w hnd
    have hnd' : jt.Nodup := hnd.of_cons
    have hjnot : j ∉ jt := (List.nodup_cons.mp hnd).1
    obtain ⟨ih1, ih2, ih3⟩ := ih (w.remove_inst j) hnd'
    refine ⟨?_, ?_, ?_⟩
    · intro x hx
      rcases List.mem_cons.mp hx with hh | hh
      · subst hh
        rw [List.foldl_cons, ih2 x hjnot, remove_inst_dfg_insts]
        exact alookup_aremove_self x w.dfg.insts
      · rw [List.foldl_cons]
        exact ih1 x hh
    · intro k hk
      have hk1 : k ≠ j := fun hh => hk (hh ▸ List.mem_cons_self _ _)
      have hk2 : k ∉ jt := fun hh => hk (List.mem_cons_of_mem _ hh)
      rw [List.foldl_cons, ih2 k hk2, remove_inst_dfg_insts,
        alookup_aremove_ne j k _ hk1]
    · intro bb
      rw [List.foldl_cons, ih3 bb, remove_inst_layout]
      cases alookup bb w.layout.bbs <;> rfl

theorem add_branches_cons (w : UnitSt) (i : Inst) (it : List Inst) (B : Block) :
    add_branches w (i :: it) B =
      add_branches ((w.build_inst (.After i) (.Jump .Br [B]) .void).2) it B :=
  rfl

theorem add_branches_spec (B : Block) (blk : Inst → Block) :
    ∀ (is : List Inst) (w : UnitSt),
      is.Nodup →
      (∀ i ∈ is, ∃ li, alookup (blk i) w.layout.bbs = some li ∧
        li.getLast? = some i ∧ i ∉ li.dropLast) →
      (∀ i ∈ is, ∀ bb li, bb ≠ blk i → alookup bb w.layout.bbs = some li → i ∉ li) →
      (∀ i ∈ is, ∀ j ∈ is, i ≠ j → blk i ≠ blk j) →
      (∀ i ∈ is, i.id < w.dfg.next_inst) →
      (∀ p ∈ w.dfg.insts, p.1.id < w.dfg.next_inst) →
      ((add_branches w is B).dfg.next_inst = w.dfg.next_inst + is.length) ∧
      (∀ p ∈ (add_branches w is B).dfg.insts,
        p.1.id < (add_branches w is B).dfg.next_inst) ∧
      (∀ k : Inst, k.id < w.dfg.next_inst →
        alookup k (add_branches w is B).dfg.insts = alookup k w.dfg.insts) ∧
      (∀ bb : Block, (∀ i ∈ is, bb ≠ blk i) →
        alookup bb (add_branches w is B).layout.bbs = alookup bb w.layout.bbs) ∧
      (∀ i ∈ is, ∀ li, alookup (blk i) w.layout.bbs = some li →
        ∃ t : Inst, w.dfg.next_inst ≤ t.id ∧
          alookup (blk i) (add_branches w is B).layout.bbs = some (li ++ [t]) ∧
          alookup t (add_branches w is B).dfg.insts = some (.Jump .Br [B])) := by
  intro is
  induction is with
  | nil =>
    intro w _ _ _ _ _ hkeys
    exact ⟨rfl, hkeys, fun k _ => rfl, fun bb _ => rfl, by simp⟩
  | cons i it ih =>
    intro w hnd hlast honly hdist hid hkeys
    have hinot : i ∉ it := (List.nodup_cons.mp hnd).1
    have hmemi : i ∈ i :: it := List.mem_cons_self _ _
    have hdfg2 : ((w.build_inst (.After i) (.Jump .Br [B]) .void).2).dfg =
        { w.dfg with
          insts := (⟨w.dfg.next_inst⟩, .Jump .Br [B]) :: w.dfg.insts
          next_inst := w.dfg.next_inst + 1 } := build_inst_void_dfg w _ _
    have hlay2 : ∀ bb : Block,
        alookup bb ((w.build_inst (.After i) (.Jump .Br [B]) .void).2).layout.bbs =
          (alookup bb w.layout.bbs).map
            (listInsertAfter ⟨w.dfg.next_inst⟩ i) := by
      intro bb
      rw [build_inst_after_layout, alookup_insert_after]
    set w2 : UnitSt := (w.build_inst (.After i) (.Jump .Br [B]) .void).2 with hw2
    -- facts about the head member's block
    obtain ⟨li, hli, hlast_i, hdrop_i⟩ := hlast i hmemi
    have hli_eq : li.dropLast ++ [i] = li :=
      List.dropLast_append_getLast? i (by simp [Option.mem_def, hlast_i])
    have hhead2 : alookup (blk i) w2.layout.bbs =
        some (li ++ [⟨w.dfg.next_inst⟩]) := by
      rw [hlay2, hli]
      have : listInsertAfter (⟨w.dfg.next_inst⟩ : Inst) i li =
          li ++ [⟨w.dfg.next_inst⟩] := by
        conv in listInsertAfter _ _ li => rw [← hli_eq]
        rw [listInsertAfter_last _ _ _ [] hdrop_i, ← hli_eq]
        simp
      simp [this]
    -- the other members' blocks are untouched by the head insertion
    have hothers2 : ∀ j ∈ it, alookup (blk j) w2.layout.bbs =
        alookup (blk j) w.layout.bbs := by
      intro j hj
      have hne : blk j ≠ blk i := by
        intro hh
        exact hdist j (List.mem_cons_of_mem _ hj) i hmemi
          (fun hji => hinot (hji ▸ hj)) hh
      rw [hlay2]
      cases hl : alookup (blk j) w.layout.bbs with
      | none => rfl
      | some l =>
        have : i ∉ l := honly i hmemi (blk j) l hne hl
        simp [listInsertAfter_of_not_mem _ _ _ this]
    -- hypotheses for the tail, on w2
    have hnd' : it.Nodup := hnd.of_cons
    have hlast' : ∀ j ∈ it, ∃ lj, alookup (blk j) w2.layout.bbs = some lj ∧
        lj.getLast? = some j ∧ j ∉ lj.dropLast := by
      intro j hj
      obtain ⟨lj, h1, h2, h3⟩ := hlast j (List.mem_cons_of_mem _ hj)
      exact ⟨lj, (hothers2 j hj).trans h1, h2, h3⟩
    have honly' : ∀ j ∈ it, ∀ bb li2, bb ≠ blk j →
        alookup bb w2.layout.bbs = some li2 → j ∉ li2 := by
      intro j hj bb li2 hbb hl2 hmem
      rw [hlay2] at hl2
      cases hl : alookup bb w.layout.bbs with
      | none => rw [hl] at hl2; simp at hl2
      | some l =>
        rw [hl] at hl2
        simp only [Option.map_some', Option.some.injEq] at hl2
        subst hl2
        rcases mem_listInsertAfter_elim j _ i l hmem with hm | ht
        · exact honly j (List.mem_cons_of_mem _ hj) bb l hbb hl hm
        · have := hid j (List.mem_cons_of_mem _ hj)
          rw [ht] at this
          exact Nat.lt_irrefl _ this
    have hdist' : ∀ a ∈ it, ∀ b ∈ it, a ≠ b → blk a ≠ blk b := by
      intro a ha b hb
      exact hdist a (List.mem_cons_of_mem _ ha) b (List.mem_cons_of_mem _ hb)
    have hid' : ∀ j ∈ it, j.id < w2.dfg.next_inst := by
      intro j hj
      rw [hw2, hdfg2]
      exact Nat.lt_succ_of_lt (hid j (List.mem_cons_of_mem _ hj))
    have hkeys' : ∀ p ∈ w2.dfg.insts, p.1.id < w2.dfg.next_inst := by
      rw [hw2, hdfg2]
      intro p hp
      rcases List.mem_cons.mp hp with hh | hh
      · rw [hh]
        exact Nat.lt_succ_self _
      · exact Nat.lt_succ_of_lt (hkeys p hh)
    obtain ⟨g1, g2, g3, g4, g5⟩ := ih w2 hnd' hlast' honly' hdist' hid' hkeys'
    have hnext2 : w2.dfg.next_inst = w.dfg.next_inst + 1 := by rw [hw2, hdfg2]
    rw [add_branches_cons, ← hw2]
    refine ⟨?_, g2, ?_, ?_, ?_⟩
    · rw [g1, hnext2, List.length_cons]
      omega
    · intro k hk
      rw [g3 k (by rw [hnext2]; exact Nat.lt_succ_of_lt hk), hw2, hdfg2]
      have : (⟨w.dfg.next_inst⟩ : Inst) ≠ k := by
        intro hh
        rw [← hh] at hk
        exact Nat.lt_irrefl _ hk
      simp [alookup, this]
    · intro bb hbb
      rw [g4 bb (fun j hj => hbb j (List.mem_cons_of_mem _ hj)), hlay2]
      cases hl : alookup bb w.layout.bbs with
      | none => rfl
      | some l =>
        have : i ∉ l := honly i hmemi bb l (hbb i hmemi) hl
        simp [listInsertAfter_of_not_mem _ _ _ this]
    · intro j hj lj hlj
      rcases List.mem_cons.mp hj with hh | hh
      · subst hh
        rw [hli] at hlj
        injection hlj with hlj
        subst hlj
        refine ⟨⟨w.dfg.next_inst⟩, Nat.le_refl _, ?_, ?_⟩
        · rw [g4 (blk j) ?diff, hhead2]
          case diff =>
            intro a ha hh
            exact hdist a (List.mem_cons_of_mem _ ha) j hmemi
              (fun haj => hinot (haj ▸ ha)) hh.symm
        · have ht2 : alookup (⟨w.dfg.next_inst⟩ : Inst) w2.dfg.insts =
              some (.Jump .Br [B]) := by
            rw [hw2, hdfg2]
            simp [alookup]
          rw [g3 ⟨w.dfg.next_inst⟩ (by rw [hnext2]; exact Nat.lt_succ_self _)]
          exact ht2
      · obtain ⟨t, ht1, ht2, ht3⟩ := g5 j hh lj ((hothers2 j hh).trans hlj)
        exact ⟨t, by rw [hnext2] at ht1; omega, ht2, ht3⟩

theorem alookup_append_left {κ β : Type} [DecidableEq κ] (k : κ) (l₁ l₂ : List (κ × β))
    (v : β) (h : alookup k l₁ = some v) : alookup k (l₁ ++ l₂) = some v := by
  rw [alookup_append, h]

theorem alookup_append_right {κ β : Type} [DecidableEq κ] (k : κ) (l₁ l₂ : List (κ × β))
    (h : alookup k l₁ = none) : alookup k (l₁ ++ l₂) = alookup k l₂ := by
  rw [alookup_append, h]

/-- C6.  Wait fusion for one group of structurally identical tail
instructions `i0 :: rest` (each instruction the terminator of its own
block, with identical data `d`): after the step, the fresh block
`⟨u.next_block⟩` exists and contains exactly the surviving wait `i0` as
its only instruction; every other wait of the group has been removed
from the data-flow graph and from every block of the layout; and each
block that previously ended in one of the group's waits now ends in an
unconditional branch to the fresh block. -/
theorem c6_fuse_group_spec (u : UnitSt) (i0 : Inst) (rest : List Inst) (d : InstData)
    (blk : Inst → Block)
    (_hwait : d.opcode.is_temporal = true)
    (hnd : (i0 :: rest).Nodup)
    (hdfg : ∀ i ∈ i0 :: rest, alookup i u.dfg.insts = some d)
    (hblk : ∀ i ∈ i0 :: rest, ∃ li, alookup (blk i) u.layout.bbs = some li ∧
      li.getLast? = some i ∧ i ∉ li.dropLast)
    (honly : ∀ i ∈ i0 :: rest, ∀ bb li, bb ≠ blk i →
      alookup bb u.layout.bbs = some li → i ∉ li)
    (hdist : ∀ i ∈ i0 :: rest, ∀ j ∈ i0 :: rest, i ≠ j → blk i ≠ blk j)
    (hkeysb : ∀ p ∈ u.layout.bbs, p.1.id < u.next_block)
    (hkeysl : ∀ p ∈ u.layout.bbs, ∀ i ∈ p.2, i.id < u.dfg.next_inst)
    (hkeysd : ∀ p ∈ u.dfg.insts, p.1.id < u.dfg.next_inst) :
    alookup (⟨u.next_block⟩ : Block) (fuse_group u i0 rest).layout.bbs = some [i0] ∧
    alookup i0 (fuse_group u i0 rest).dfg.insts = some d ∧
    (∀ j ∈ rest, alookup j (fuse_group u i0 rest).dfg.insts = none ∧
      ∀ bb li, alookup bb (fuse_group u i0 rest).layout.bbs = some li → j ∉ li) ∧
    (∀ i ∈ i0 :: rest, ∃ li t,
      alookup (blk i) (fuse_group u i0 rest).layout.bbs = some li ∧
      li.getLast? = some t ∧
      alookup t (fuse_group u i0 rest).dfg.insts =
        some (.Jump .Br [(⟨u.next_block⟩ : Block)])) := by
  have hid : ∀ i ∈ i0 :: rest, i.id < u.dfg.next_inst := by
    intro i hi
    obtain ⟨li, hli, hlast_i, _⟩ := hblk i hi
    have hmem : i ∈ li := by
      have hdec := @List.dropLast_append_getLast? _ li i (Option.mem_def.mpr hlast_i)
      have h2 : i ∈ li.dropLast ++ [i] :=
        List.mem_append_right _ (List.mem_singleton_self i)
      rwa [hdec] at h2
    exact hkeysl (blk i, li) (alookup_mem _ _ _ hli) i hmem
  have hblkne : ∀ i ∈ i0 :: rest, blk i ≠ (⟨u.next_block⟩ : Block) := by
    intro i hi hh
    obtain ⟨li, hli, _, _⟩ := hblk i hi
    have := hkeysb (blk i, li) (alookup_mem _ _ _ hli)
    rw [hh] at this
    exact Nat.lt_irrefl _ this
  have hBnone : alookup (⟨u.next_block⟩ : Block) u.layout.bbs = none := by
    apply alookup_eq_none_of_keys
    intro p hp hh
    have := hkeysb p hp
    rw [hh] at this
    exact Nat.lt_irrefl _ this
  have h1bbs : ((u.block).2).layout.bbs =
      u.layout.bbs ++ [((⟨u.next_block⟩ : Block), [])] := rfl
  have hlast1 : ∀ i ∈ i0 :: rest, ∃ li,
      alookup (blk i) ((u.block).2).layout.bbs = some li ∧
      li.getLast? = some i ∧ i ∉ li.dropLast := by
    intro i hi
    obtain ⟨li, hli, h2, h3⟩ := hblk i hi
    refine ⟨li, ?_, h2, h3⟩
    rw [h1bbs]
    exact alookup_append_left _ _ _ _ hli
  have honly1 : ∀ i ∈ i0 :: rest, ∀ bb li, bb ≠ blk i →
      alookup bb ((u.block).2).layout.bbs = some li → i ∉ li := by
    intro i hi bb li hne hl
    rw [h1bbs] at hl
    cases hu : alookup bb u.layout.bbs with
    | some l =>
      rw [alookup_append_left _ _ _ _ hu] at hl
      injection hl with hl
      subst hl
      exact honly i hi bb l hne hu
    | none =>
      rw [alookup_append_right _ _ _ hu] at hl
      by_cases hb : (⟨u.next_block⟩ : Block) = bb
      · simp [alookup, hb] at hl
        subst hl
        simp
      · simp [alookup, hb] at hl
  obtain ⟨g1, g2, g3, g4, g5⟩ := add_branches_spec (⟨u.next_block⟩ : Block) blk
    (i0 :: rest) ((u.block).2) hnd hlast1 honly1 hdist hid hkeysd
  have hBu2 : alookup (⟨u.next_block⟩ : Block)
      (add_branches ((u.block).2) (i0 :: rest) (⟨u.next_block⟩ : Block)).layout.bbs =
      some [] := by
    rw [g4 _ (fun i hi => Ne.symm (hblkne i hi)), h1bbs,
      alookup_append_right _ _ _ hBnone]
    simp [alookup]
  obtain ⟨li0, hli0, hlast0, hdrop0⟩ := hblk i0 (List.mem_cons_self _ _)
  have hli0dec : li0.dropLast ++ [i0] = li0 :=
    @List.dropLast_append_getLast? _ li0 i0 (Option.mem_def.mpr hlast0)
  have hli0' : alookup (blk i0) ((u.block).2).layout.bbs = some li0 := by
    rw [h1bbs]
    exact alookup_append_left _ _ _ _ hli0
  obtain ⟨t0, ht0n, ht0lay, ht0dfg⟩ := g5 i0 (List.mem_cons_self _ _) li0 hli0'
  have hi0rest : i0 ∉ rest := (List.nodup_cons.mp hnd).1
  have hndrest : rest.Nodup := hnd.of_cons
  obtain ⟨q1, q2, q3⟩ := remove_fold_spec rest
    { add_branches ((u.block).2) (i0 :: rest) (⟨u.next_block⟩ : Block) with
      layout :=
        (((add_branches ((u.block).2) (i0 :: rest)
          (⟨u.next_block⟩ : Block)).layout.remove_inst i0).append_inst i0
          (⟨u.next_block⟩ : Block)) } hndrest
  have hfg : fuse_group u i0 rest =
      rest.foldl (fun u inst => u.remove_inst inst)
        { add_branches ((u.block).2) (i0 :: rest) (⟨u.next_block⟩ : Block) with
          layout :=
            (((add_branches ((u.block).2) (i0 :: rest)
              (⟨u.next_block⟩ : Block)).layout.remove_inst i0).append_inst i0
              (⟨u.next_block⟩ : Block)) } := rfl
  have hrestne : ∀ j ∈ rest, j ≠ t0 := by
    intro j hj hh
    have := hid j (List.mem_cons_of_mem _ hj)
    rw [hh] at this
    exact Nat.lt_irrefl _ (Nat.lt_of_lt_of_le this ht0n)
  have ht0rest : t0 ∉ rest := fun hh => (hrestne t0 hh) rfl
  refine ⟨?_, ?_, ?_, ?_⟩
  · rw [hfg, q3, alookup_append_inst_self, alookup_remove_inst, hBu2]
    simp only [Option.map_some']
    congr 1
    have hnil : lremove i0 ([] : List Inst) ++ [i0] = [i0] := rfl
    rw [hnil]
    apply foldl_lremove_of_not_mem
    intro j hj
    simp only [List.mem_singleton]
    intro hji
    exact hi0rest (hji ▸ hj)
  · rw [hfg, q2 i0 hi0rest]
    show alookup i0
      (add_branches ((u.block).2) (i0 :: rest) (⟨u.next_block⟩ : Block)).dfg.insts = _
    rw [g3 i0 (hid i0 (List.mem_cons_self _ _))]
    exact hdfg i0 (List.mem_cons_self _ _)
  · intro j hj
    constructor
    · rw [hfg]
      exact q1 j hj
    · intro bb li hli
      rw [hfg, q3 bb] at hli
      cases hl : alookup bb
          (((((add_branches ((u.block).2) (i0 :: rest)
            (⟨u.next_block⟩ : Block)).layout.remove_inst i0)).append_inst i0
            (⟨u.next_block⟩ : Block))).bbs with
      | none => rw [hl] at hli; simp at hli
      | some l =>
        rw [hl] at hli
        simp only [Option.map_some', Option.some.injEq] at hli
        subst hli
        exact not_mem_foldl_lremove rest l j hj
  · intro i hi
    have hneB : blk i ≠ (⟨u.next_block⟩ : Block) := hblkne i hi
    rcases List.mem_cons.mp hi with hh | hh
    · rw [hh]
      have hu3i : alookup (blk i0)
          (((((add_branches ((u.block).2) (i0 :: rest)
            (⟨u.next_block⟩ : Block)).layout.remove_inst i0)).append_inst i0
            (⟨u.next_block⟩ : Block))).bbs = some (li0.dropLast ++ [t0]) := by
        rw [alookup_append_inst_ne _ _ _ _ (hblkne i0 (List.mem_cons_self _ _)),
          alookup_remove_inst, ht0lay]
        simp only [Option.map_some', Option.some.injEq]
        have ht0ne : t0 ≠ i0 := by
          intro hhh
          have := hid i0 (List.mem_cons_self _ _)
          rw [← hhh] at this
          exact Nat.lt_irrefl _ (Nat.lt_of_lt_of_le this ht0n)
        rw [lremove_append, lremove_of_not_mem i0 [t0] (by
          simp only [List.mem_singleton]
          exact fun hmm => ht0ne hmm.symm)]
        conv in lremove i0 li0 => rw [← hli0dec]
        rw [lremove_append, lremove_of_not_mem i0 li0.dropLast hdrop0]
        simp [lremove]
      refine ⟨rest.foldl (fun acc j => lremove j acc) li0.dropLast ++ [t0], t0,
        ?_, List.getLast?_concat _, ?_⟩
      · rw [hfg, q3, hu3i]
        simp only [Option.map_some', Option.some.injEq]
        exact foldl_lremove_append_last rest _ t0 hrestne
      · rw [hfg, q2 t0 ht0rest]
        exact ht0dfg
    · have hine : i ≠ i0 := fun hii => hi0rest (hii ▸ hh)
      obtain ⟨lj, hlj, hlastj, hdropj⟩ := hblk i hi
      have hlj1 : alookup (blk i) ((u.block).2).layout.bbs = some lj := by
        rw [h1bbs]
        exact alookup_append_left _ _ _ _ hlj
      obtain ⟨tj, htjn, htjlay, htjdfg⟩ := g5 i hi lj hlj1
      have hrestnej : ∀ j' ∈ rest, j' ≠ tj := by
        intro j' hj' hh
        have := hid j' (List.mem_cons_of_mem _ hj')
        rw [hh] at this
        exact Nat.lt_irrefl _ (Nat.lt_of_lt_of_le this htjn)
      have htjrest : tj ∉ rest := fun hhh => (hrestnej tj hhh) rfl
      have hi0lj : i0 ∉ lj := by
        exact honly i0 (List.mem_cons_self _ _) (blk i) lj
          (hdist i hi i0 (List.mem_cons_self _ _) hine) hlj
      have hu3j : alookup (blk i)
          (((((add_branches ((u.block).2) (i0 :: rest)
            (⟨u.next_block⟩ : Block)).layout.remove_inst i0)).append_inst i0
            (⟨u.next_block⟩ : Block))).bbs = some (lj ++ [tj]) := by
        rw [alookup_append_inst_ne _ _ _ _ hneB, alookup_remove_inst, htjlay]
        simp only [Option.map_some', Option.some.injEq]
        apply lremove_of_not_mem
        simp only [List.mem_append, List.mem_singleton]
        rintro (hm | hm)
        · exact hi0lj hm
        · have := hid i0 (List.mem_cons_self _ _)
          rw [hm] at this
          exact Nat.lt_irrefl _ (Nat.lt_of_lt_of_le this htjn)
      refine ⟨rest.foldl (fun acc j => lremove j acc) lj ++ [tj], tj,
        ?_, List.getLast?_concat _, ?_⟩
      · rw [hfg, q3, hu3j]
        simp only [Option.map_some', Option.some.injEq]
        exact foldl_lremove_append_last rest _ tj hrestnej
      · rw [hfg, q2 tj htjrest]
        exact htjdfg

/-- C6 — witness: fusing the two identical waits of `fuseExample`
produces the fresh block 2 holding exactly wait 0, removes wait 1, and
reroutes both blocks. -/
theorem c6_fuse_group_spec_witness :
    alookup (⟨2⟩ : Block) (fuse_group fuseExample ⟨0⟩ [⟨1⟩]).layout.bbs =
        some [⟨0⟩] ∧
    alookup (⟨0⟩ : Inst) (fuse_group fuseExample ⟨0⟩ [⟨1⟩]).dfg.insts =
        some (.Wait .Wait [xb0] []) ∧
    alookup (⟨1⟩ : Inst) (fuse_group fuseExample ⟨0⟩ [⟨1⟩]).dfg.insts = none := by
  have hdfg : ∀ i ∈ [(⟨0⟩ : Inst), ⟨1⟩],
      alookup i fuseExample.dfg.insts = some (.Wait .Wait [xb0] []) := by
    intro i hi
    fin_cases hi <;> rfl
  have hblk : ∀ i ∈ [(⟨0⟩ : Inst), ⟨1⟩], ∃ li,
      alookup (fuseBlk i) fuseExample.layout.bbs = some li ∧
      li.getLast? = some i ∧ i ∉ li.dropLast := by
    intro i hi
    fin_cases hi
    · exact ⟨[⟨0⟩], rfl, rfl, by decide⟩
    · exact ⟨[⟨1⟩], rfl, rfl, by decide⟩
  have honly : ∀ i ∈ [(⟨0⟩ : Inst), ⟨1⟩], ∀ bb li, bb ≠ fuseBlk i →
      alookup bb fuseExample.layout.bbs = some li → i ∉ li := by
    intro i hi bb li hne hl
    simp only [fuseExample, alookup] at hl
    fin_cases hi
    · by_cases h0 : xb0 = bb
      · exact absurd h0.symm hne
      · rw [if_neg h0] at hl
        by_cases h1 : xb1 = bb
        · rw [if_pos h1] at hl
          injection hl with hl
          subst hl
          decide
        · rw [if_neg h1] at hl
          exact absurd hl (by simp)
    · by_cases h1 : xb1 = bb
      · exact absurd h1.symm hne
      · by_cases h0 : xb0 = bb
        · rw [if_pos h0] at hl
          injection hl with hl
          subst hl
          decide
        · rw [if_neg h0, if_neg h1] at hl
          exact absurd hl (by simp)
  have hdist : ∀ i ∈ [(⟨0⟩ : Inst), ⟨1⟩], ∀ j ∈ [(⟨0⟩ : Inst), ⟨1⟩], i ≠ j →
      fuseBlk i ≠ fuseBlk j := by
    intro i hi j hj hne
    fin_cases hi <;> fin_cases hj
    · exact absurd rfl hne
    · decide
    · decide
    · exact absurd rfl hne
  have hkeysb : ∀ p ∈ fuseExample.layout.bbs, p.1.id < fuseExample.next_block := by
    intro p hp
    fin_cases hp <;> decide
  have hkeysl : ∀ p ∈ fuseExample.layout.bbs, ∀ i ∈ p.2,
      i.id < fuseExample.dfg.next_inst := by
    intro p hp
    fin_cases hp <;> intro i hi <;> fin_cases hi <;> decide
  have hkeysd : ∀ p ∈ fuseExample.dfg.insts, p.1.id < fuseExample.dfg.next_inst := by
    intro p hp
    fin_cases hp <;> decide
  have h := c6_fuse_group_spec fuseExample ⟨0⟩ [⟨1⟩] (.Wait .Wait [xb0] []) fuseBlk
    rfl (by decide) hdfg hblk honly hdist hkeysb hkeysl hkeysd
  exact ⟨h.1, h.2.1, (h.2.2.1 ⟨1⟩ (List.mem_singleton_self _)).1⟩

theorem ty_is_void_false_of_ne (t : Ty) (h : t ≠ .void) : t.is_void = false := by
  cases t <;> first | exact absurd rfl h | rfl

theorem build_value_lookup_lt (u : UnitSt) (pos : InsertPos) (data : InstData)
    (ty : Ty) (k : Value) (hk : k.id < u.dfg.next_value) :
    alookup k ((u.build_inst pos data ty).2).dfg.values = alookup k u.dfg.values := by
  unfold UnitSt.build_inst DataFlowGraph.add_inst
  cases hv : ty.is_void with
  | true => simp [hv]
  | false =>
    have hne : (⟨u.dfg.next_value⟩ : Value) ≠ k := by
      intro hh
      rw [← hh] at hk
      exact Nat.lt_irrefl _ hk
    simp [hv, alookup_cons, hne]

theorem build_inst_lookup_lt (u : UnitSt) (pos : InsertPos) (data : InstData)
    (ty : Ty) (k : Inst) (hk : k.id < u.dfg.next_inst) :
    alookup k ((u.build_inst pos data ty).2).dfg.insts = alookup k u.dfg.insts := by
  unfold UnitSt.build_inst DataFlowGraph.add_inst
  have hne : (⟨u.dfg.next_inst⟩ : Inst) ≠ k := by
    intro hh
    rw [← hh] at hk
    exact Nat.lt_irrefl _ hk
  cases hv : ty.is_void <;> simp [hv, alookup_cons, hne]

theorem build_value_type_lt (u : UnitSt) (pos : InsertPos) (data : InstData)
    (ty : Ty) (k : Value) (hk : k.id < u.dfg.next_value) :
    ((u.build_inst pos data ty).2).dfg.value_type k = u.dfg.value_type k := by
  unfold DataFlowGraph.value_type
  rw [build_value_lookup_lt u pos data ty k hk]

theorem build_keeps_bounds (u : UnitSt) (pos : InsertPos) (data : InstData)
    (ty : Ty) (hb : DfgKeyBounds u.dfg) :
    DfgKeyBounds ((u.build_inst pos data ty).2).dfg := by
  obtain ⟨h1, h2, h3⟩ := hb
  unfold UnitSt.build_inst DataFlowGraph.add_inst DfgKeyBounds
  cases hv : ty.is_void with
  | true =>
    simp only [hv, if_pos]
    refine ⟨?_, ?_, ?_⟩
    · intro p hp
      rcases List.mem_cons.mp hp with h | h
      · rw [h]
        exact Nat.lt_succ_self _
      · exact Nat.lt_succ_of_lt (h1 p h)
    · intro p hp
      exact h2 p hp
    · intro p hp
      exact Nat.lt_succ_of_lt (h3 p hp)
  | false =>
    simp only [hv, Bool.false_eq_true, if_neg, if_false]
    refine ⟨?_, ?_, ?_⟩
    · intro p hp
      rcases List.mem_cons.mp hp with h | h
      · rw [h]
        exact Nat.lt_succ_self _
      · exact Nat.lt_succ_of_lt (h1 p h)
    · intro p hp
      rcases List.mem_cons.mp hp with h | h
      · rw [h]
        exact Nat.lt_succ_self _
      · exact Nat.lt_succ_of_lt (h2 p h)
    · intro p hp
      rcases List.mem_cons.mp hp with h | h
      · rw [h]
        exact Nat.lt_succ_self _
      · exact Nat.lt_succ_of_lt (h3 p h)

theorem build_next_value_le (u : UnitSt) (pos : InsertPos) (data : InstData)
    (ty : Ty) :
    u.dfg.next_value ≤ ((u.build_inst pos data ty).2).dfg.next_value := by
  unfold UnitSt.build_inst DataFlowGraph.add_inst
  cases hv : ty.is_void <;> simp [hv]

theorem build_next_value_nonvoid (u : UnitSt) (pos : InsertPos) (data : InstData)
    (ty : Ty) (h : ty.is_void = false) :
    ((u.build_inst pos data ty).2).dfg.next_value = u.dfg.next_value + 1 := by
  unfold UnitSt.build_inst DataFlowGraph.add_inst
  simp [h]

theorem build_value_inst_new (u : UnitSt) (pos : InsertPos) (data : InstData)
    (ty : Ty) (h : ty.is_void = false) :
    ((u.build_inst pos data ty).2).dfg.get_value_inst ⟨u.dfg.next_value⟩ =
      some ⟨u.dfg.next_inst⟩ := by
  unfold UnitSt.build_inst DataFlowGraph.add_inst DataFlowGraph.get_value_inst
  simp [h, alookup]

theorem build_inst_data_new (u : UnitSt) (pos : InsertPos) (data : InstData)
    (ty : Ty) :
    ((u.build_inst pos data ty).2).dfg.inst_data ⟨u.dfg.next_inst⟩ = some data := by
  unfold UnitSt.build_inst DataFlowGraph.add_inst DataFlowGraph.inst_data
  cases hv : ty.is_void <;> simp [hv, alookup]

theorem build_result_new (u : UnitSt) (pos : InsertPos) (data : InstData)
    (ty : Ty) (h : ty.is_void = false) :
    ((u.build_inst pos data ty).2).dfg.get_inst_result (u.build_inst pos data ty).1 =
      some ⟨u.dfg.next_value⟩ := by
  unfold UnitSt.build_inst DataFlowGraph.add_inst DataFlowGraph.get_inst_result
  simp [h, alookup]

theorem build_value_type_new (u : UnitSt) (pos : InsertPos) (data : InstData)
    (ty : Ty) (h : ty.is_void = false) :
    ((u.build_inst pos data ty).2).dfg.value_type ⟨u.dfg.next_value⟩ = some ty := by
  unfold UnitSt.build_inst DataFlowGraph.add_inst DataFlowGraph.value_type
  simp [h, alookup, ValueData.ty]

theorem get_value_inst_isSome_values (dfg : DataFlowGraph) (v : Value) (i : Inst)
    (h : dfg.get_value_inst v = some i) :
    (alookup v dfg.values).isSome = true := by
  unfold DataFlowGraph.get_value_inst at h
  cases hav : alookup v dfg.values with
  | none =>
    rw [hav] at h
    exact absurd h (by simp)
  | some vd => rfl

theorem get_value_inst_congr (dfg dfg' : DataFlowGraph) (v : Value)
    (h : alookup v dfg'.values = alookup v dfg.values) :
    dfg'.get_value_inst v = dfg.get_value_inst v := by
  unfold DataFlowGraph.get_value_inst
  rw [h]

theorem value_type_congr (dfg dfg' : DataFlowGraph) (k : Value)
    (h : alookup k dfg'.values = alookup k dfg.values) :
    dfg'.value_type k = dfg.value_type k := by
  unfold DataFlowGraph.value_type
  rw [h]

theorem inst_data_isSome_insts (dfg : DataFlowGraph) (i : Inst) (d : InstData)
    (h : dfg.inst_data i = some d) :
    (alookup i dfg.insts).isSome = true := by
  unfold DataFlowGraph.inst_data at h
  rw [h]
  rfl

theorem chain_encodes_mono (dfg dfg' : DataFlowGraph)
    (hval : ∀ k : Value, (alookup k dfg.values).isSome = true →
      alookup k dfg'.values = alookup k dfg.values)
    (hins : ∀ k : Inst, (alookup k dfg.insts).isSome = true →
      alookup k dfg'.insts = alookup k dfg.insts)
    {v : Value} {e : CExpr} (h : chain_encodes dfg v e) :
    chain_encodes dfg' v e := by
  induction h with
  | lit w => exact chain_encodes.lit w
  | one w i h1 h2 =>
    refine chain_encodes.one w i ?_ ?_
    · rw [get_value_inst_congr dfg dfg' w
        (hval w (get_value_inst_isSome_values dfg w i h1))]
      exact h1
    · show alookup i dfg'.insts = _
      rw [hins i (inst_data_isSome_insts dfg i _ h2)]
      exact h2
  | notE w x i h1 h2 =>
    refine chain_encodes.notE w x i ?_ ?_
    · rw [get_value_inst_congr dfg dfg' w
        (hval w (get_value_inst_isSome_values dfg w i h1))]
      exact h1
    · show alookup i dfg'.insts = _
      rw [hins i (inst_data_isSome_insts dfg i _ h2)]
      exact h2
  | andE w a b i ea eb h1 h2 hca hcb iha ihb =>
    refine chain_encodes.andE w a b i ea eb ?_ ?_ iha ihb
    · rw [get_value_inst_congr dfg dfg' w
        (hval w (get_value_inst_isSome_values dfg w i h1))]
      exact h1
    · show alookup i dfg'.insts = _
      rw [hins i (inst_data_isSome_insts dfg i _ h2)]
      exact h2

theorem build_keep_values_some (u : UnitSt) (pos : InsertPos) (data : InstData)
    (ty : Ty) (hb : DfgKeyBounds u.dfg) (k : Value)
    (hs : (alookup k u.dfg.values).isSome = true) :
    alookup k ((u.build_inst pos data ty).2).dfg.values = alookup k u.dfg.values := by
  obtain ⟨w, hw⟩ := Option.isSome_iff_exists.mp hs
  exact build_value_lookup_lt u pos data ty k (hb.2.1 (k, w) (alookup_mem k w _ hw))

theorem build_keep_insts_some (u : UnitSt) (pos : InsertPos) (data : InstData)
    (ty : Ty) (hb : DfgKeyBounds u.dfg) (k : Inst)
    (hs : (alookup k u.dfg.insts).isSome = true) :
    alookup k ((u.build_inst pos data ty).2).dfg.insts = alookup k u.dfg.insts := by
  obtain ⟨w, hw⟩ := Option.isSome_iff_exists.mp hs
  exact build_inst_lookup_lt u pos data ty k (hb.1 (k, w) (alookup_mem k w _ hw))

theorem chain_encodes_build (u : UnitSt) (pos : InsertPos) (data : InstData)
    (ty : Ty) (hb : DfgKeyBounds u.dfg) {v : Value} {e : CExpr}
    (h : chain_encodes u.dfg v e) :
    chain_encodes ((u.build_inst pos data ty).2).dfg v e :=
  chain_encodes_mono u.dfg _
    (fun k hs => build_keep_values_some u pos data ty hb k hs)
    (fun k hs => build_keep_insts_some u pos data ty hb k hs) h

theorem build_and_inv (dst_bb : Block) (cond : Value) (u : UnitSt) (w : Value)
    (e ew : CExpr) (t0 : Ty)
    (hb : DfgKeyBounds u.dfg)
    (ht0v : t0.is_void = false)
    (hch : chain_encodes u.dfg cond e)
    (hw : chain_encodes u.dfg w ew) :
    DfgKeyBounds ((u.build_inst (.Prepend dst_bb) (.Binary .And [cond, w])
        t0).2).dfg ∧
    (((u.build_inst (.Prepend dst_bb) (.Binary .And [cond, w]) t0).2.dfg.get_inst_result
        (u.build_inst (.Prepend dst_bb) (.Binary .And [cond, w]) t0).1).getD
          Value.invalid).id <
      ((u.build_inst (.Prepend dst_bb) (.Binary .And [cond, w]) t0).2).dfg.next_value ∧
    (∃ t, ((u.build_inst (.Prepend dst_bb) (.Binary .And [cond, w]) t0).2).dfg.value_type
        (((u.build_inst (.Prepend dst_bb) (.Binary .And [cond, w]) t0).2.dfg.get_inst_result
          (u.build_inst (.Prepend dst_bb) (.Binary .And [cond, w]) t0).1).getD
            Value.invalid) = some t ∧ t.is_void = false) ∧
    chain_encodes ((u.build_inst (.Prepend dst_bb) (.Binary .And [cond, w]) t0).2).dfg
      (((u.build_inst (.Prepend dst_bb) (.Binary .And [cond, w]) t0).2.dfg.get_inst_result
        (u.build_inst (.Prepend dst_bb) (.Binary .And [cond, w]) t0).1).getD
          Value.invalid) (.andE e ew) ∧
    u.dfg.next_value ≤
      ((u.build_inst (.Prepend dst_bb) (.Binary .And [cond, w]) t0).2).dfg.next_value ∧
    (∀ k : Value, k.id < u.dfg.next_value →
      alookup k ((u.build_inst (.Prepend dst_bb) (.Binary .And [cond, w]) t0).2).dfg.values =
        alookup k u.dfg.values) := by
  have hres : ((u.build_inst (.Prepend dst_bb) (.Binary .And [cond, w])
      t0).2.dfg.get_inst_result
        (u.build_inst (.Prepend dst_bb) (.Binary .And [cond, w]) t0).1).getD
          Value.invalid = ⟨u.dfg.next_value⟩ := by
    rw [build_result_new u (.Prepend dst_bb) (.Binary .And [cond, w]) t0 ht0v]
    rfl
  rw [hres]
  refine ⟨?_, ?_, ?_, ?_, ?_, ?_⟩
  · exact build_keeps_bounds u (.Prepend dst_bb) (.Binary .And [cond, w]) t0 hb
  · rw [build_next_value_nonvoid u (.Prepend dst_bb) (.Binary .And [cond, w]) t0 ht0v]
    exact Nat.lt_succ_self _
  · exact ⟨t0, build_value_type_new u (.Prepend dst_bb) (.Binary .And [cond, w]) t0 ht0v,
      ht0v⟩
  · exact chain_encodes.andE ⟨u.dfg.next_value⟩ cond w ⟨u.dfg.next_inst⟩ e ew
      (build_value_inst_new u (.Prepend dst_bb) (.Binary .And [cond, w]) t0 ht0v)
      (build_inst_data_new u (.Prepend dst_bb) (.Binary .And [cond, w]) t0)
      (chain_encodes_build u (.Prepend dst_bb) (.Binary .And [cond, w]) t0 hb hch)
      (chain_encodes_build u (.Prepend dst_bb) (.Binary .And [cond, w]) t0 hb hw)
  · exact build_next_value_le u (.Prepend dst_bb) (.Binary .And [cond, w]) t0
  · intro k hk
    exact build_value_lookup_lt u (.Prepend dst_bb) (.Binary .And [cond, w]) t0 k hk

theorem build_not_inv (dst_bb : Block) (u : UnitSt) (v : Value)
    (hb : DfgKeyBounds u.dfg)
    (hvt : u.dfg.value_type v ≠ some .void) :
    DfgKeyBounds ((u.build_inst (.Prepend dst_bb) (.Unary .Not [v])
        ((u.dfg.value_type v).getD (.int 1))).2).dfg ∧
    chain_encodes ((u.build_inst (.Prepend dst_bb) (.Unary .Not [v])
        ((u.dfg.value_type v).getD (.int 1))).2).dfg
      (((u.build_inst (.Prepend dst_bb) (.Unary .Not [v])
          ((u.dfg.value_type v).getD (.int 1))).2.dfg.get_inst_result
        (u.build_inst (.Prepend dst_bb) (.Unary .Not [v])
          ((u.dfg.value_type v).getD (.int 1))).1).getD Value.invalid) (.notE v) ∧
    ((u.build_inst (.Prepend dst_bb) (.Unary .Not [v])
        ((u.dfg.value_type v).getD (.int 1))).2).dfg.next_value =
      u.dfg.next_value + 1 ∧
    (∀ k : Value, k.id < u.dfg.next_value →
      alookup k ((u.build_inst (.Prepend dst_bb) (.Unary .Not [v])
          ((u.dfg.value_type v).getD (.int 1))).2).dfg.values =
        alookup k u.dfg.values) := by
  have hty1v : ((u.dfg.value_type v).getD (.int 1)).is_void = false := by
    cases hx : u.dfg.value_type v with
    | none => rfl
    | some t1 =>
      refine ty_is_void_false_of_ne t1 ?_
      intro hh
      exact hvt (by rw [hx, hh])
  have hres : ((u.build_inst (.Prepend dst_bb) (.Unary .Not [v])
      ((u.dfg.value_type v).getD (.int 1))).2.dfg.get_inst_result
        (u.build_inst (.Prepend dst_bb) (.Unary .Not [v])
          ((u.dfg.value_type v).getD (.int 1))).1).getD Value.invalid =
      ⟨u.dfg.next_value⟩ := by
    rw [build_result_new u (.Prepend dst_bb) (.Unary .Not [v])
      ((u.dfg.value_type v).getD (.int 1)) hty1v]
    rfl
  rw [hres]
  refine ⟨?_, ?_, ?_, ?_⟩
  · exact build_keeps_bounds u (.Prepend dst_bb) (.Unary .Not [v])
      ((u.dfg.value_type v).getD (.int 1)) hb
  · exact chain_encodes.notE ⟨u.dfg.next_value⟩ v ⟨u.dfg.next_inst⟩
      (build_value_inst_new u (.Prepend dst_bb) (.Unary .Not [v])
        ((u.dfg.value_type v).getD (.int 1)) hty1v)
      (build_inst_data_new u (.Prepend dst_bb) (.Unary .Not [v])
        ((u.dfg.value_type v).getD (.int 1)))
  · exact build_next_value_nonvoid u (.Prepend dst_bb) (.Unary .Not [v])
      ((u.dfg.value_type v).getD (.int 1)) hty1v
  · intro k hk
    exact build_value_lookup_lt u (.Prepend dst_bb) (.Unary .Not [v])
      ((u.dfg.value_type v).getD (.int 1)) k hk

theorem build_cond_step_inv (dst_bb : Block) (cond : Value) (u : UnitSt) (v : Value)
    (pol : Bool) (e : CExpr) (t0 : Ty)
    (hb : DfgKeyBounds u.dfg)
    (ht0 : u.dfg.value_type cond = some t0)
    (ht0v : t0.is_void = false)
    (hch : chain_encodes u.dfg cond e)
    (hvt : u.dfg.value_type v ≠ some .void) :
    DfgKeyBounds (build_cond_step dst_bb (cond, u) (v, pol)).2.dfg ∧
    (build_cond_step dst_bb (cond, u) (v, pol)).1.id <
      (build_cond_step dst_bb (cond, u) (v, pol)).2.dfg.next_value ∧
    (∃ t, (build_cond_step dst_bb (cond, u) (v, pol)).2.dfg.value_type
        (build_cond_step dst_bb (cond, u) (v, pol)).1 = some t ∧ t.is_void = false) ∧
    chain_encodes (build_cond_step dst_bb (cond, u) (v, pol)).2.dfg
      (build_cond_step dst_bb (cond, u) (v, pol)).1
      (.andE e (if pol then .lit v else .notE v)) ∧
    u.dfg.next_value ≤ (build_cond_step dst_bb (cond, u) (v, pol)).2.dfg.next_value ∧
    (∀ k : Value, k.id < u.dfg.next_value →
      alookup k (build_cond_step dst_bb (cond, u) (v, pol)).2.dfg.values =
        alookup k u.dfg.values) := by
  cases pol with
  | true =>
    have hdv : ((u.dfg.value_type cond).getD (.int 1)).is_void = false := by
      rw [ht0]
      exact ht0v
    exact build_and_inv dst_bb cond u v e (.lit v)
      ((u.dfg.value_type cond).getD (.int 1)) hb hdv hch (chain_encodes.lit v)
  | false =>
    obtain ⟨hb1, hch1, hnv1, hpres1⟩ := build_not_inv dst_bb u v hb hvt
    have hcondlt : cond.id < u.dfg.next_value := by
      have hsome : (alookup cond u.dfg.values).isSome = true := by
        cases hav : alookup cond u.dfg.values with
        | none =>
          have hnonet : u.dfg.value_type cond = none := by
            unfold DataFlowGraph.value_type
            rw [hav]
            rfl
          rw [hnonet] at ht0
          exact absurd ht0 (by simp)
        | some vd => rfl
      obtain ⟨w, hw⟩ := Option.isSome_iff_exists.mp hsome
      exact hb.2.1 (cond, w) (alookup_mem cond w _ hw)
    have hct : ((u.build_inst (.Prepend dst_bb) (.Unary .Not [v])
        ((u.dfg.value_type v).getD (.int 1))).2).dfg.value_type cond = some t0 := by
      rw [value_type_congr u.dfg
        ((u.build_inst (.Prepend dst_bb) (.Unary .Not [v])
          ((u.dfg.value_type v).getD (.int 1))).2).dfg cond (hpres1 cond hcondlt)]
      exact ht0
    have hdv : ((((u.build_inst (.Prepend dst_bb) (.Unary .Not [v])
        ((u.dfg.value_type v).getD (.int 1))).2).dfg.value_type cond).getD
          (.int 1)).is_void = false := by
      rw [hct]
      exact ht0v
    have hch1' : chain_encodes ((u.build_inst (.Prepend dst_bb) (.Unary .Not [v])
        ((u.dfg.value_type v).getD (.int 1))).2).dfg cond e :=
      chain_encodes_build u (.Prepend dst_bb) (.Unary .Not [v])
        ((u.dfg.value_type v).getD (.int 1)) hb hch
    have h := build_and_inv dst_bb cond
      (u.build_inst (.Prepend dst_bb) (.Unary .Not [v])
        ((u.dfg.value_type v).getD (.int 1))).2
      (((u.build_inst (.Prepend dst_bb) (.Unary .Not [v])
          ((u.dfg.value_type v).getD (.int 1))).2.dfg.get_inst_result
        (u.build_inst (.Prepend dst_bb) (.Unary .Not [v])
          ((u.dfg.value_type v).getD (.int 1))).1).getD Value.invalid)
      e (.notE v)
      ((((u.build_inst (.Prepend dst_bb) (.Unary .Not [v])
        ((u.dfg.value_type v).getD (.int 1))).2).dfg.value_type cond).getD (.int 1))
      hb1 hdv hch1' hch1
    refine ⟨h.1, h.2.1, h.2.2.1, h.2.2.2.1, ?_, ?_⟩
    · exact le_trans (by rw [hnv1]; omega) h.2.2.2.2.1
    · intro k hk
      have hk1 : k.id < ((u.build_inst (.Prepend dst_bb) (.Unary .Not [v])
          ((u.dfg.value_type v).getD (.int 1))).2).dfg.next_value := by
        rw [hnv1]
        omega
      exact (h.2.2.2.2.2 k hk1).trans (hpres1 k hk)

theorem build_cond_fold_inv (dst_bb : Block) :
    ∀ (l : List (Value × Bool)) (cond : Value) (u : UnitSt) (e : CExpr),
      DfgKeyBounds u.dfg →
      (∃ t, u.dfg.value_type cond = some t ∧ t.is_void = false) →
      chain_encodes u.dfg cond e →
      (∀ vp ∈ l, vp.1.id < u.dfg.next_value ∧
        u.dfg.value_type vp.1 ≠ some .void) →
      chain_encodes (l.foldl (build_cond_step dst_bb) (cond, u)).2.dfg
        (l.foldl (build_cond_step dst_bb) (cond, u)).1
        (l.foldl (fun acc vp =>
          CExpr.andE acc (if vp.2 then CExpr.lit vp.1 else CExpr.notE vp.1)) e) := by
  intro l
  induction l with
  | nil =>
    intro cond u e _hb _ht hch _hl
    exact hch
  | cons vp t ihl =>
    intro cond u e hb ht hch hl
    obtain ⟨v, pol⟩ := vp
    obtain ⟨t0, ht0, ht0v⟩ := ht
    have hvt := (hl (v, pol) (List.mem_cons_self _ _)).2
    have hstep := build_cond_step_inv dst_bb cond u v pol e t0 hb ht0 ht0v hch hvt
    obtain ⟨hb', _hc', ht', hch', hle', hpres'⟩ := hstep
    rw [List.foldl_cons, List.foldl_cons]
    have hl' : ∀ vp' ∈ t,
        vp'.1.id < (build_cond_step dst_bb (cond, u) (v, pol)).2.dfg.next_value ∧
        (build_cond_step dst_bb (cond, u) (v, pol)).2.dfg.value_type vp'.1 ≠
          some .void := by
      intro vp' hvp'
      have h1 := (hl vp' (List.mem_cons_of_mem _ hvp')).1
      have h2 := (hl vp' (List.mem_cons_of_mem _ hvp')).2
      refine ⟨Nat.lt_of_lt_of_le h1 hle', ?_⟩
      have heq : (build_cond_step dst_bb (cond, u) (v, pol)).2.dfg.value_type vp'.1 =
          u.dfg.value_type vp'.1 := by
        unfold DataFlowGraph.value_type
        rw [hpres' vp'.1 h1]
      rw [heq]
      exact h2
    exact ihl (build_cond_step dst_bb (cond, u) (v, pol)).1
      (build_cond_step dst_bb (cond, u) (v, pol)).2
      (CExpr.andE e (if pol then CExpr.lit v else CExpr.notE v)) hb' ht' hch' hl'

theorem build_drive_cond_encodes (u : UnitSt) (dst_bb : Block)
    (conds : List (Value × Bool))
    (hb : DfgKeyBounds u.dfg)
    (hconds : ∀ vp ∈ conds, vp.1.id < u.dfg.next_value ∧
      u.dfg.value_type vp.1 ≠ some .void) :
    chain_encodes (build_drive_cond u dst_bb conds).2.dfg
      (build_drive_cond u dst_bb conds).1 (drive_cond_expr conds) := by
  have h0 : build_drive_cond u dst_bb conds =
      conds.reverse.foldl (build_cond_step dst_bb)
        ((((u.build_inst (.Prepend dst_bb) (.ConstInt .ConstInt 1)
            (.int 1)).2).dfg.get_inst_result
          (u.build_inst (.Prepend dst_bb) (.ConstInt .ConstInt 1)
            (.int 1)).1).getD Value.invalid,
          (u.build_inst (.Prepend dst_bb) (.ConstInt .ConstInt 1) (.int 1)).2) := rfl
  have hres : (((u.build_inst (.Prepend dst_bb) (.ConstInt .ConstInt 1)
      (.int 1)).2).dfg.get_inst_result
        (u.build_inst (.Prepend dst_bb) (.ConstInt .ConstInt 1)
          (.int 1)).1).getD Value.invalid = ⟨u.dfg.next_value⟩ := by
    rw [build_result_new u (.Prepend dst_bb) (.ConstInt .ConstInt 1) (.int 1) rfl]
    rfl
  rw [h0, hres]
  have hnv : ((u.build_inst (.Prepend dst_bb) (.ConstInt .ConstInt 1)
      (.int 1)).2).dfg.next_value = u.dfg.next_value + 1 :=
    build_next_value_nonvoid u (.Prepend dst_bb) (.ConstInt .ConstInt 1) (.int 1) rfl
  have hb1 := build_keeps_bounds u (.Prepend dst_bb) (.ConstInt .ConstInt 1)
    (.int 1) hb
  have ht1 : ∃ t, ((u.build_inst (.Prepend dst_bb) (.ConstInt .ConstInt 1)
      (.int 1)).2).dfg.value_type ⟨u.dfg.next_value⟩ = some t ∧ t.is_void = false :=
    ⟨.int 1,
      build_value_type_new u (.Prepend dst_bb) (.ConstInt .ConstInt 1) (.int 1) rfl,
      rfl⟩
  have hch1 : chain_encodes ((u.build_inst (.Prepend dst_bb) (.ConstInt .ConstInt 1)
      (.int 1)).2).dfg ⟨u.dfg.next_value⟩ .one :=
    chain_encodes.one ⟨u.dfg.next_value⟩ ⟨u.dfg.next_inst⟩
      (build_value_inst_new u (.Prepend dst_bb) (.ConstInt .ConstInt 1) (.int 1) rfl)
      (build_inst_data_new u (.Prepend dst_bb) (.ConstInt .ConstInt 1) (.int 1))
  have hl1 : ∀ vp ∈ conds.reverse,
      vp.1.id < ((u.build_inst (.Prepend dst_bb) (.ConstInt .ConstInt 1)
        (.int 1)).2).dfg.next_value ∧
      ((u.build_inst (.Prepend dst_bb) (.ConstInt .ConstInt 1)
        (.int 1)).2).dfg.value_type vp.1 ≠ some .void := by
    intro vp hvp
    have hm := hconds vp (List.mem_reverse.mp hvp)
    refine ⟨by rw [hnv]; omega, ?_⟩
    have heq := build_value_type_lt u (.Prepend dst_bb) (.ConstInt .ConstInt 1)
      (.int 1) vp.1 hm.1
    rw [heq]
    exact hm.2
  exact build_cond_fold_inv dst_bb conds.reverse ⟨u.dfg.next_value⟩
    (u.build_inst (.Prepend dst_bb) (.ConstInt .ConstInt 1) (.int 1)).2
    .one hb1 ht1 hch1 hl1

/-- C2 — amended.  During the dominator walk of `push_drive`, a step
whose parent ends in `BrCond cond, bb0, bb1` records `(cond, side)` with
`side = false` when the source-side finger equals the first target `bb0`
and `side = true` when it equals the second target `bb1` (the source
records `position != 0`); the condition synthesized at the front of the
destination block by `build_drive_cond` reads back from the extended
data-flow graph as exactly the chain `drive_cond_expr conds` — the
constant one conjoined, in reverse order, with each recorded condition,
un-negated when its side is true and behind a freshly built `not` when
it is false; and that chain evaluates to the corresponding boolean
conjunction. -/
theorem c2_branch_polarity_and_synthesis :
    (∀ (c : Value) (x y : Block),
      brcond_polarity (.Branch .BrCond [c] [x, y]) x = some false) ∧
    (∀ (c : Value) (x y : Block), y ≠ x →
      brcond_polarity (.Branch .BrCond [c] [x, y]) y = some true) ∧
    (∀ (u : UnitSt) (dst_bb : Block) (conds : List (Value × Bool)),
      DfgKeyBounds u.dfg →
      (∀ vp ∈ conds, vp.1.id < u.dfg.next_value ∧
        u.dfg.value_type vp.1 ≠ some .void) →
      chain_encodes (build_drive_cond u dst_bb conds).2.dfg
        (build_drive_cond u dst_bb conds).1 (drive_cond_expr conds)) ∧
    (∀ (env : Value → Bool) (conds : List (Value × Bool)),
      (drive_cond_expr conds).eval env =
        conds.all (fun vp => if vp.2 then env vp.1 else !env vp.1)) := by
  refine ⟨?_, ?_, ?_, ?_⟩
  · intro c x y
    simp [brcond_polarity, InstData.blocks, List.findIdx?]
  · intro c x y h
    have hxy : ¬x = y := fun hh => h hh.symm
    simp [brcond_polarity, InstData.blocks, List.findIdx?, hxy]
  · intro u dst_bb conds hb hconds
    exact build_drive_cond_encodes u dst_bb conds hb hconds
  · intro env conds
    unfold drive_cond_expr
    rw [drive_cond_chain_eval, List.all_reverse]
    simp [CExpr.eval]

/-- C2 — witness: at the conditional branch `br_cond v, block1, block2`,
a finger equal to `block1` records side false and a finger equal to
`block2` records side true; and on a concrete one-value unit the
condition built for a single false-polarity condition reads back as
`one ∧ ¬value`. -/
theorem c2_branch_polarity_witness :
    (brcond_polarity (.Branch .BrCond [xv0] [xb1, xb2]) xb1 = some false ∧
      brcond_polarity (.Branch .BrCond [xv0] [xb1, xb2]) xb2 = some true) ∧
    chain_encodes (build_drive_cond insimExample xb0 [(⟨0⟩, false)]).2.dfg
      (build_drive_cond insimExample xb0 [(⟨0⟩, false)]).1
      (drive_cond_expr [(⟨0⟩, false)]) := by
  have h := c2_branch_polarity_and_synthesis
  refine ⟨⟨h.1 xv0 xb1 xb2, h.2.1 xv0 xb1 xb2 (by decide)⟩, ?_⟩
  refine h.2.2.1 insimExample xb0 [(⟨0⟩, false)] ?_ ?_
  · unfold DfgKeyBounds
    refine ⟨?_, ?_, ?_⟩ <;> decide
  · intro vp hvp
    have hv0 : vp = (⟨0⟩, false) := List.mem_singleton.mp hvp
    rw [hv0]
    refine ⟨by decide, ?_⟩
    intro hh
    have hcontra : insimExample.dfg.value_type ⟨0⟩ = some (.int 1) := rfl
    have hbad : (some (Ty.int 1) : Option Ty) = some Ty.void := hcontra.symm.trans hh
    injection hbad with hbad2
    exact Ty.noConfusion hbad2

end Llhd
